import Mathlib

/-!
# ccdbind: CPU-list codec, topology selection, unit naming, process
classification and state loading

A shallow embedding of the pure parts of the Go sources

* `internal/topology/cpulist.go`  (`ParseCPUList`, `FormatCPUList`, `ContainsCPU`,
  `CanonicalizeCPUList`)
* `internal/topology/topology.go` (`SelectOSAndGame`)
* `internal/systemdctl/unitname.go` (`UnitNameForGameID`)
* `internal/systemdctl/userdbus.go` (`EnsureTransientScope`, `isUnitExistsErr`)
* `internal/procscan/procscan.go` (`NewScanner`, `toSetLower`, `gameIDFromEnviron`, `Scan`)
* `internal/state/state.go` (`Load`, `Save`)

Conventions of the embedding.

* A Go `string` / `[]byte` is a `Text`, a list of Unicode code points (the text is taken to be
  valid UTF-8, so that ranging over runes and splitting on the ASCII bytes `,`, `-`, `=`, NUL
  agree with the byte-level code).
* A Go `int` is a 64-bit two's-complement integer, embedded as an `Int` in
  `[minInt, maxInt]`; arithmetic that can leave the interval is wrapped explicitly.
* A Go `map[K]struct{}` is the list of its distinct keys in insertion order; every use in the
  sources either tests membership or sorts the keys, so the iteration order never shows.
* A call that does not return (a loop that never exits) is the outcome `diverges`.
* The file system and the control bus are explicit states; whether a system call fails is an
  input of the model, and a file that exists can be read.
-/

namespace Ccdbind

/-- A Go string, as its sequence of code points. -/
abbrev Text := List Char

/-! ## Library primitives (Go standard library, modelled from its documentation) -/

/-- The function `unicode.IsSpace`: the Latin-1 spaces `\t \n \v \f \r`, space, U+0085, U+00A0,
and the other code points with the Unicode White_Space property. -/
def isSpace (c : Char) : Bool :=
  let n := c.toNat
  (9 ≤ n && n ≤ 13) || n == 32 || n == 0x85 || n == 0xA0 || n == 0x1680 ||
  (0x2000 ≤ n && n ≤ 0x200A) || n == 0x2028 || n == 0x2029 || n == 0x202F ||
  n == 0x205F || n == 0x3000

/-- Drop the longest suffix whose elements satisfy `p`. -/
def dropRightWhile (p : Char → Bool) : Text → Text
  | [] => []
  | c :: cs =>
    match dropRightWhile p cs with
    | [] => if p c then [] else [c]
    | r => c :: r

/-- The function `strings.TrimSpace`: remove leading and trailing white space. -/
def TrimSpace (s : Text) : Text :=
  dropRightWhile isSpace (s.dropWhile isSpace)

/-- The function `strings.Split(s, sep)` for a one-character separator: the pieces between the
separators; always at least one piece. -/
def Split (sep : Char) : Text → List Text
  | [] => [[]]
  | c :: cs =>
    if c = sep then [] :: Split sep cs
    else
      match Split sep cs with
      | [] => [[c]]
      | p :: ps => (c :: p) :: ps

/-- The function `strings.SplitN(s, sep, 2)` for a one-character separator that occurs in `s`: the
text before the first separator and the text after it. -/
def SplitN2 (sep : Char) : Text → Text × Text
  | [] => ([], [])
  | c :: cs => if c = sep then ([], cs) else ((c :: (SplitN2 sep cs).1), (SplitN2 sep cs).2)

/-- Largest value of a Go `int` (64 bit). -/
def maxInt : Int := 9223372036854775807

/-- Smallest value of a Go `int` (64 bit). -/
def minInt : Int := -9223372036854775808

/-- Two's-complement wrap of an integer into the range of a Go `int`. -/
def wrapInt (i : Int) : Int := (i + 9223372036854775808) % 18446744073709551616 - 9223372036854775808

/-- The value of an ASCII decimal digit. -/
def digitVal (c : Char) : Option Nat :=
  if 48 ≤ c.toNat ∧ c.toNat ≤ 57 then some (c.toNat - 48) else none

/-- The digit loop of `strconv.ParseUint` in base 10: every character must be a decimal digit;
the value is accumulated left to right. -/
def parseDigits : Text → Nat → Option Nat
  | [], n => some n
  | c :: cs, n =>
    match digitVal c with
    | none => none
    | some d => parseDigits cs (n * 10 + d)

/-- The unsigned part of `strconv.Atoi`: a non-empty run of decimal digits. -/
def parseUnsigned (ds : Text) : Option Nat :=
  if ds = [] then none else parseDigits ds 0

/-- The function `strconv.Atoi` on a 64-bit platform: an optional sign `+` or `-`, then a
non-empty run of decimal digits, whose value must lie in `[-2^63, 2^63-1]`; `none` stands for
the returned error. -/
def Atoi (s : Text) : Option Int :=
  match s with
  | [] => none
  | c :: cs =>
    if c = '+' then
      match parseUnsigned cs with
      | none => none
      | some un => if un ≥ 9223372036854775808 then none else some (un : Int)
    else if c = '-' then
      match parseUnsigned cs with
      | none => none
      | some un => if un > 9223372036854775808 then none else some (-(un : Int))
    else
      match parseUnsigned (c :: cs) with
      | none => none
      | some un => if un ≥ 9223372036854775808 then none else some (un : Int)

/-- The character of a decimal digit `d < 10`. -/
def digitChar (d : Nat) : Char := Char.ofNat (48 + d)

/-- Decimal digits of a natural number, most significant first, prepended to `acc`; `fuel`
bounds the number of digits. -/
def natDigits : Nat → Nat → Text → Text
  | 0, _, acc => acc
  | fuel + 1, n, acc =>
    if n < 10 then digitChar n :: acc
    else natDigits fuel (n / 10) (digitChar (n % 10) :: acc)

/-- The function `strconv.Itoa`: decimal text of an integer, with a leading `-` when negative. -/
def Itoa (i : Int) : Text :=
  if i < 0 then '-' :: natDigits (i.natAbs + 1) i.natAbs []
  else natDigits (i.natAbs + 1) i.natAbs []

/-- The function `sort.Ints`: ascending order. -/
def sortInts (l : List Int) : List Int := l.insertionSort (fun a b => a ≤ b)

/-- Insert a key into a Go set `map[K]struct{}`, kept as the list of its distinct keys. -/
def insertKey {α : Type} [DecidableEq α] (seen : List α) (k : α) : List α :=
  if k ∈ seen then seen else seen ++ [k]

/-! ## `internal/topology/cpulist.go` -/

/-- What a call does: it returns a value, returns an error, or never returns. -/
inductive Outcome (ε α : Type) where
  | ok (val : α)
  | error (err : ε)
  | diverges
  deriving DecidableEq

/-- The errors of `ParseCPUList`: `invalid cpu range %q` and `invalid cpu %q: ...`. -/
inductive ParseError where
  | invalidRange (part : Text)
  | invalidCPU (text : Text)
  deriving DecidableEq

/-- The integers `start, start+1, ..., stop` in ascending order (empty when `stop < start`). -/
def rangeList (start stop : Int) : List Int :=
  (List.range (stop - start + 1).toNat).map (fun (i : Nat) => start + (i : Int))

/-- The loop `for cpu := start; cpu <= end; cpu++ { seen[cpu] = struct{}{} }` for
`start ≤ end`.  When `end` is the largest `int`, `cpu++` wraps around to the smallest `int`
and the condition `cpu <= end` never becomes false: the loop does not exit (`none`).
Otherwise every integer of `[start, end]` is inserted. -/
def rangeLoop (seen : List Int) (start stop : Int) : Option (List Int) :=
  if stop = maxInt then none
  else some ((rangeList start stop).foldl insertKey seen)

/-- The body of the loop of `ParseCPUList` over the comma-separated parts, threading the set
`seen`. -/
def parseParts : List Text → List Int → Outcome ParseError (List Int)
  | [], seen => .ok seen
  | p :: ps, seen =>
    let part := TrimSpace p
    if part = [] then parseParts ps seen
    else if '-' ∈ part then
      let bounds := SplitN2 '-' part
      match Atoi (TrimSpace bounds.1) with
      | none => .error (.invalidCPU bounds.1)
      | some start =>
        match Atoi (TrimSpace bounds.2) with
        | none => .error (.invalidCPU bounds.2)
        | some stop =>
          if start > stop then .error (.invalidRange part)
          else
            match rangeLoop seen start stop with
            | none => .diverges
            | some seen1 => parseParts ps seen1
    else
      match Atoi part with
      | none => .error (.invalidCPU part)
      | some cpu => parseParts ps (insertKey seen cpu)

/-- The function `ParseCPUList`. -/
def ParseCPUList (s : Text) : Outcome ParseError (List Int) :=
  let s := TrimSpace s
  if s = [] then .ok []
  else
    match parseParts (Split ',' s) [] with
    | .ok seen => .ok (sortInts seen)
    | .error e => .error e
    | .diverges => .diverges

/-- The closure `flush` of `FormatCPUList`, as a function of the builder content. -/
def flush (b : Text) (s e : Int) : Text :=
  let b := if b.length > 0 then b ++ [','] else b
  if s = e then b ++ Itoa s
  else b ++ Itoa s ++ ['-'] ++ Itoa e

/-- The loop `for i := 1; i < len(uniq); i++` of `FormatCPUList` with its final `flush`. -/
def formatLoop : List Int → Int → Int → Text → Text
  | [], start, prev, b => flush b start prev
  | cpu :: rest, start, prev, b =>
    if cpu = wrapInt (prev + 1) then formatLoop rest start cpu b
    else formatLoop rest cpu cpu (flush b start prev)

/-- The function `FormatCPUList`. -/
def FormatCPUList (cpus : List Int) : Text :=
  if cpus.length = 0 then []
  else
    match sortInts (cpus.foldl insertKey []) with
    | [] => []
    | u0 :: rest => formatLoop rest u0 u0 []

/-- The function `ContainsCPU`. -/
def ContainsCPU (cpus : List Int) (cpu : Int) : Bool :=
  match cpus with
  | [] => false
  | c :: cs => if c = cpu then true else ContainsCPU cs cpu

/-- The function `CanonicalizeCPUList`. -/
def CanonicalizeCPUList (s : Text) : Outcome ParseError (Text × List Int) :=
  match ParseCPUList s with
  | .ok cpus => .ok (FormatCPUList cpus, cpus)
  | .error e => .error e
  | .diverges => .diverges

/-! ## `internal/topology/topology.go` -/

/-- The errors of `SelectOSAndGame`: `no valid cpu lists`, and `no cpu list contains CPU0`,
which is returned together with the canonical lists. -/
inductive SelectError where
  | noValidLists
  | noCPU0 (canonicalLists : List Text)
  deriving DecidableEq

/-- Go string comparison `a <= b`: lexicographic on the bytes, which for UTF-8 text is
lexicographic on the code points. -/
def strLe : Text → Text → Bool
  | [], _ => true
  | _ :: _, [] => false
  | a :: as, b :: bs =>
    if a.toNat < b.toNat then true
    else if b.toNat < a.toNat then false
    else strLe as bs

/-- The function `sort.Strings`: ascending order. -/
def sortStrings (l : List Text) : List Text := l.insertionSort (fun a b => strLe a b = true)

/-- The first loop of `SelectOSAndGame`: the set `uniq` of the non-empty canonical texts of the
entries that parse; `none` when a call of `CanonicalizeCPUList` does not return. -/
def collectCanonical : List Text → List Text → Option (List Text)
  | [], uniq => some uniq
  | s :: rest, uniq =>
    match CanonicalizeCPUList s with
    | .diverges => none
    | .error _ => collectCanonical rest uniq
    | .ok (canonical, _) =>
      if canonical = [] then collectCanonical rest uniq
      else collectCanonical rest (insertKey uniq canonical)

/-- The loop of `SelectOSAndGame` that looks for `osIdx`, started at index `i`: the index of the
first list containing CPU 0, `some none` for `osIdx == -1`, `none` when a call does not
return. -/
def findOSIdx : List Text → Nat → Option (Option Nat)
  | [], _ => some none
  | s :: rest, i =>
    match CanonicalizeCPUList s with
    | .diverges => none
    | .error _ => findOSIdx rest (i + 1)
    | .ok (_, cpus) => if ContainsCPU cpus 0 then some (some i) else findOSIdx rest (i + 1)

/-- The last loop of `SelectOSAndGame`, started at index `i`: the slice `other`; `none` when a
call does not return. -/
def collectOther : List Text → Nat → Nat → List Int → Option (List Int)
  | [], _, _, other => some other
  | s :: rest, i, osIdx, other =>
    if i = osIdx then collectOther rest (i + 1) osIdx other
    else
      match CanonicalizeCPUList s with
      | .diverges => none
      | .error _ => collectOther rest (i + 1) osIdx other
      | .ok (_, cpus) =>
        if ContainsCPU cpus 0 then collectOther rest (i + 1) osIdx other
        else collectOther rest (i + 1) osIdx (other ++ cpus)

/-- The function `SelectOSAndGame`; a result is `(osCPUs, gameCPUs, canonicalLists)`. -/
def SelectOSAndGame (lists : List Text) : Outcome SelectError (Text × Text × List Text) :=
  match collectCanonical lists [] with
  | none => .diverges
  | some uniq =>
    if uniq.length = 0 then .error .noValidLists
    else
      let canonicalLists := sortStrings uniq
      match findOSIdx canonicalLists 0 with
      | none => .diverges
      | some none => .error (.noCPU0 canonicalLists)
      | some (some osIdx) =>
        let osCPUs := TrimSpace (canonicalLists.getD osIdx [])
        match collectOther canonicalLists 0 osIdx [] with
        | none => .diverges
        | some other => .ok (osCPUs, TrimSpace (FormatCPUList other), canonicalLists)

/-! ## `internal/systemdctl/unitname.go` -/

/-- The test of the loop of `UnitNameForGameID`: an ASCII letter, a digit, `-` or `_`. -/
def isUnitChar (r : Char) : Bool :=
  (97 ≤ r.toNat && r.toNat ≤ 122) || (65 ≤ r.toNat && r.toNat ≤ 90) ||
  (48 ≤ r.toNat && r.toNat ≤ 57) || r == '-' || r == '_'

/-- The function `strings.Trim(s, "-_")`. -/
def trimDashUnderscore (s : Text) : Text :=
  dropRightWhile (fun c => c == '-' || c == '_') (s.dropWhile (fun c => c == '-' || c == '_'))

/-- The function `UnitNameForGameID`.  The text `sanitized` is ASCII, so its byte length, which
the source compares with 80, is its number of characters. -/
def UnitNameForGameID (gameID : Text) : Text :=
  let gameID := TrimSpace gameID
  let gameID := if gameID = [] then "unknown".toList else gameID
  let sanitized := gameID.map (fun r => if isUnitChar r then r else '_')
  let sanitized := trimDashUnderscore sanitized
  let sanitized := if sanitized = [] then "unknown".toList else sanitized
  let sanitized := if sanitized.length > 80 then sanitized.take 80 else sanitized
  "game-".toList ++ sanitized ++ ".scope".toList

/-! ## `internal/procscan/procscan.go` -/

/-- The struct `GameProcess`. -/
structure GameProcess where
  PID : Int
  StartTime : Nat
  Exe : Text
  GameID : Text
  IDSource : Text
  deriving DecidableEq

/-- The struct `Scanner`; the map `envKeyIndex` is an association list, the two sets are lists
of keys. -/
structure Scanner where
  UID : Int
  envKeyOrder : List Text
  envKeyIndex : List (Text × Nat)
  exeAllowlist : List Text
  ignoreExe : List Text
  deriving DecidableEq

/-- Lookup `m[k]` in a Go map kept as an association list. -/
def mapLookup : List (Text × Nat) → Text → Option Nat
  | [], _ => none
  | (k1, v) :: rest, k => if k1 = k then some v else mapLookup rest k

/-- The loop of `NewScanner` over `envKeys`, threading `keys` and `idx`. -/
def newScannerLoop : List Text → List Text → List (Text × Nat) → List Text × List (Text × Nat)
  | [], keys, idx => (keys, idx)
  | k :: rest, keys, idx =>
    let k := TrimSpace k
    if k = [] then newScannerLoop rest keys idx
    else if (mapLookup idx k).isSome then newScannerLoop rest keys idx
    else newScannerLoop rest (keys ++ [k]) (idx ++ [(k, keys.length)])

/-- The library function `strings.ToLower` on ASCII text: the letters `A`-`Z` are mapped to
`a`-`z` and every other character is kept.  (On other text `strings.ToLower` follows the Unicode
case tables; the functions below take the lower-casing function as a parameter.) -/
def toLowerASCII (s : Text) : Text :=
  s.map (fun c => if 65 ≤ c.toNat ∧ c.toNat ≤ 90 then Char.ofNat (c.toNat + 32) else c)

/-- The function `toSetLower`; `lower` is the library function `strings.ToLower`. -/
def toSetLower (lower : Text → Text) : List Text → List Text → List Text
  | [], out => out
  | s :: rest, out =>
    let s := lower (TrimSpace s)
    if s = [] then toSetLower lower rest out
    else toSetLower lower rest (insertKey out s)

/-- The function `NewScanner`; `lower` is the library function `strings.ToLower`. -/
def NewScanner (lower : Text → Text) (uid : Int) (envKeys exeAllowlist ignoreExe : List Text) :
    Scanner :=
  let r := newScannerLoop envKeys [] []
  { UID := uid
    envKeyOrder := r.1
    envKeyIndex := r.2
    exeAllowlist := toSetLower lower exeAllowlist []
    ignoreExe := toSetLower lower ignoreExe [] }

/-- The entries that the loop `for start < len(data)` of `gameIDFromEnviron` visits: the
pieces of `data` between NUL bytes, without the empty piece after a final NUL. -/
def envEntries : Text → List Text
  | [] => []
  | c :: cs =>
    if c = Char.ofNat 0 then [] :: envEntries cs
    else
      match envEntries cs with
      | [] => [[c]]
      | e :: es => (c :: e) :: es

/-- The function `bytes.IndexByte`: the index of the first occurrence, `none` for `-1`. -/
def indexByte (c : Char) : Text → Option Nat
  | [] => none
  | x :: xs => if x = c then some 0 else (indexByte c xs).map (fun i => i + 1)

/-- The body of the loop of `gameIDFromEnviron` over the entries, threading `bestIdx`,
`bestKey`, `bestVal`; the result is `(bestVal, bestKey)`. -/
def envLoop (s : Scanner) : List Text → Nat → Text → Text → Text × Text
  | [], _, bestKey, bestVal => (bestVal, bestKey)
  | entry :: rest, bestIdx, bestKey, bestVal =>
    if entry.length = 0 then envLoop s rest bestIdx bestKey bestVal
    else
      match indexByte '=' entry with
      | none => envLoop s rest bestIdx bestKey bestVal
      | some eq =>
        if eq = 0 then envLoop s rest bestIdx bestKey bestVal
        else
          let k := entry.take eq
          match mapLookup s.envKeyIndex k with
          | none => envLoop s rest bestIdx bestKey bestVal
          | some idx =>
            if idx ≥ bestIdx then envLoop s rest bestIdx bestKey bestVal
            else
              let v := TrimSpace (entry.drop (eq + 1))
              if v = [] then envLoop s rest bestIdx bestKey bestVal
              else if idx = 0 then (v, k)
              else envLoop s rest idx k v

/-- The function `gameIDFromEnviron`, given the outcome of reading `/proc/<pid>/environ`
(`none` for a read error); the result is `(id, source)`. -/
def gameIDFromEnviron (s : Scanner) (environ : Option Text) : Text × Text :=
  if s.envKeyOrder.length = 0 then ([], [])
  else
    match environ with
    | none => ([], [])
    | some data => envLoop s (envEntries data) (s.envKeyOrder.length + 1) [] []

/-- What `Scan` reads about one entry of `/proc`: its name, whether it is a directory, the
outcome of `isOwnedByUID` (`none` for an error), the result of `exeBasenameLower`, the outcome
of reading the environment block and the outcome of `procStartTime`. -/
structure ProcEntry where
  name : Text
  isDir : Bool
  owned : Option Bool
  exeBase : Text
  environ : Option Text
  startTime : Option Nat
  deriving DecidableEq

/-- The body of the loop of `Scan` for one entry: the record it appends, `none` when the entry
is skipped. -/
def scanEntry (s : Scanner) (ent : ProcEntry) : Option GameProcess :=
  if !ent.isDir then none
  else
    match Atoi ent.name with
    | none => none
    | some pid =>
      if pid ≤ 0 then none
      else
        match ent.owned with
        | none => none
        | some false => none
        | some true =>
          let exeBase := ent.exeBase
          if exeBase = [] then none
          else if exeBase ∈ s.ignoreExe then none
          else
            let r := gameIDFromEnviron s ent.environ
            let r := if r.1 = [] then
                (if exeBase ∈ s.exeAllowlist then (exeBase, "exe_allowlist".toList) else r)
              else r
            if r.1 = [] then none
            else
              some { PID := pid, StartTime := ent.startTime.getD 0, Exe := exeBase,
                     GameID := r.1, IDSource := r.2 }

/-- The update `results[id] = append(results[id], gp)` of a Go map kept as an association
list. -/
def appendResult : List (Text × List GameProcess) → Text → GameProcess →
    List (Text × List GameProcess)
  | [], id, gp => [(id, [gp])]
  | (k, v) :: rest, id, gp =>
    if k = id then (k, v ++ [gp]) :: rest else (k, v) :: appendResult rest id gp

/-- The function `Scan`, given the outcome of `os.ReadDir("/proc")` (`none` for an error, which
`Scan` returns). -/
def Scan (s : Scanner) (proc : Option (List ProcEntry)) : Option (List (Text × List GameProcess)) :=
  match proc with
  | none => none
  | some ents =>
    some (ents.foldl (fun results ent =>
      match scanEntry s ent with
      | none => results
      | some gp => appendResult results gp.GameID gp) [])

/-! ## `internal/state/state.go` -/

/-- The struct `File`.  A Go map that may be `nil` is an `Option`; a `time.Time` is an integer
with zero value 0. -/
structure File where
  Version : Int
  PinApplied : Bool
  OriginalAllowedCPUs : Option (List (Text × Text))
  OSCPUs : Text
  GameCPUs : Text
  UpdatedAt : Int
  LastSuccessfulRestore : Int
  LastSuccessfulPinApply : Int
  deriving DecidableEq

/-- The zero value `File{}`. -/
def File.zero : File :=
  { Version := 0, PinApplied := false, OriginalAllowedCPUs := none, OSCPUs := [], GameCPUs := [],
    UpdatedAt := 0, LastSuccessfulRestore := 0, LastSuccessfulPinApply := 0 }

/-- The outcome of `os.ReadFile(path)`: the error `os.ErrNotExist`, another error, or the
bytes of the file. -/
inductive ReadFile where
  | notExist
  | failed
  | contents (data : Text)
  deriving DecidableEq

/-- The errors of `Load`: the error of `os.ReadFile` or the error of `json.Unmarshal`. -/
inductive LoadError where
  | read
  | unmarshal
  deriving DecidableEq

/-- The function `Load`, given the outcome of reading the file at `path`; `Unmarshal data` is
the record that the library call `json.Unmarshal(data, &st)` leaves in a zero `st`, `none` when
it returns an error. -/
def Load (Unmarshal : Text → Option File) (rd : ReadFile) : Except LoadError File :=
  match rd with
  | .notExist => .ok { File.zero with Version := 1 }
  | .failed => .error .read
  | .contents data =>
    match Unmarshal data with
    | none => .error .unmarshal
    | some st =>
      let st := if st.Version = 0 then { st with Version := 1 } else st
      let st := if st.OriginalAllowedCPUs = none then { st with OriginalAllowedCPUs := some [] } else st
      .ok st

/-! ## `internal/state/state.go`: `Save` -/

/-- Every element is a value of a Go `int`. -/
def InRange (l : List Int) : Prop := ∀ c ∈ l, minInt ≤ c ∧ c ≤ maxInt

/-- The runs `(lo, hi)` that the loop of `FormatCPUList` flushes, when it is at a run that
began at `start` and has reached `prev`. -/
def runsFrom : List Int → Int → Int → List (Int × Int)
  | [], start, prev => [(start, prev)]
  | cpu :: rest, start, prev =>
    if cpu = prev + 1 then runsFrom rest start cpu
    else (start, prev) :: runsFrom rest cpu cpu

/-- The runs of consecutive integers of an ascending list. -/
def runsOf : List Int → List (Int × Int)
  | [] => []
  | u0 :: rest => runsFrom rest u0 u0

/-- Text of one run: the bare number for a run of one integer, `lo-hi` for a longer one. -/
def renderRun (r : Int × Int) : Text :=
  if r.1 = r.2 then Itoa r.1 else Itoa r.1 ++ ['-'] ++ Itoa r.2

/-- Every piece preceded by a comma. -/
def commaAll : List Text → Text
  | [] => []
  | x :: xs => ',' :: (x ++ commaAll xs)

/-- The pieces joined by commas. -/
def joinComma : List Text → Text
  | [] => []
  | x :: xs => x ++ commaAll xs

/-- The integers covered by a list of runs, run after run. -/
def expandRuns : List (Int × Int) → List Int
  | [] => []
  | r :: rs => rangeList r.1 r.2 ++ expandRuns rs

/-- Some run of more than one integer ends at the largest `int`. -/
def runsDiverge (rs : List (Int × Int)) : Bool :=
  rs.any (fun r => decide (r.1 ≠ r.2) && decide (r.2 = maxInt))

/-- The sorted, duplicate-free list of the elements of `l`: the slice `uniq` of
`FormatCPUList` after `sort.Ints`. -/
def sortedKeys (l : List Int) : List Int := sortInts (l.foldl insertKey [])

/-- Reference: `rs` is the list of the maximal runs of consecutive integers of the set of the
elements of `S`, in ascending order: every run is a non-empty interval, between a run and the
next one at least one integer is missing, and the runs cover exactly the elements of `S`. -/
def IsMaximalRuns (rs : List (Int × Int)) (S : List Int) : Prop :=
  (∀ r ∈ rs, r.1 ≤ r.2) ∧
  rs.Chain' (fun r q => r.2 + 1 < q.1) ∧
  (∀ x, x ∈ S ↔ ∃ r ∈ rs, r.1 ≤ x ∧ x ≤ r.2)

/-- The comma-separated tokens of a CPU-list text: the pieces of the trimmed text between
commas, each trimmed. -/
def tokens (s : Text) : List Text := (Split ',' (TrimSpace s)).map TrimSpace

/-- The bounds of a token of the form `lo-hi`: the integers before and after its first `-`. -/
def rangeBounds (t : Text) : Option (Int × Int) :=
  if '-' ∈ t then
    match Atoi (TrimSpace (SplitN2 '-' t).1), Atoi (TrimSpace (SplitN2 '-' t).2) with
    | some lo, some hi => some (lo, hi)
    | _, _ => none
  else none

/-- The CPUs that a token stands for: the integers of a range, the integer of a number. -/
def tokenCPUs (t : Text) : List Int :=
  if '-' ∈ t then
    match rangeBounds t with
    | some (lo, hi) => rangeList lo hi
    | none => []
  else
    match Atoi t with
    | some v => [v]
    | none => []

/-- The loop of `collectOther` over a stretch of the canonical lists that does not hold the
index `osIdx`. -/
def gatherOther : List Text → List Int → Option (List Int)
  | [], other => some other
  | s :: rest, other =>
    match CanonicalizeCPUList s with
    | .diverges => none
    | .error _ => gatherOther rest other
    | .ok (_, cpus) =>
      if ContainsCPU cpus 0 then gatherOther rest other
      else gatherOther rest (other ++ cpus)

/-- The CPU sets that the texts of `cl` denote are pairwise disjoint. -/
def PairwiseDisjointLists (cl : List Text) : Prop :=
  ∀ c1 ∈ cl, ∀ c2 ∈ cl, c1 ≠ c2 → ∀ S1 S2 : List Int,
    ParseCPUList c1 = .ok S1 → ParseCPUList c2 = .ok S2 → ∀ x, x ∈ S1 → x ∉ S2

/-- No call of `ParseCPUList` that `SelectOSAndGame` makes for these raw texts runs for ever:
neither on a raw text nor on the canonical text of a raw text that parses. -/
def NoDivergence (lists : List Text) : Prop :=
  ∀ s ∈ lists, ParseCPUList s ≠ .diverges ∧
    ∀ cpus, ParseCPUList s = .ok cpus → ParseCPUList (FormatCPUList cpus) ≠ .diverges

/-- The character class `[A-Za-z0-9_-]`. -/
def inUnitClass (c : Char) : Bool :=
  ('A' ≤ c && c ≤ 'Z') || ('a' ≤ c && c ≤ 'z') || ('0' ≤ c && c ≤ '9') || c == '_' || c == '-'

/-- The text matches `^game-[A-Za-z0-9_-]{1,80}\.scope$`. -/
def MatchesUnitPattern (t : Text) : Prop :=
  ∃ mid : Text, t = "game-".toList ++ mid ++ ".scope".toList ∧
    1 ≤ mid.length ∧ mid.length ≤ 80 ∧ ∀ c ∈ mid, inUnitClass c = true

/-- The entries of an environment block: the pieces between NUL bytes. -/
def blockEntries (data : Text) : List Text := Split (Char.ofNat 0) data

/-- The key and the white-space-trimmed value of an entry `KEY=VALUE`, split at its first
`=`; `none` for an entry without `=`. -/
def entryKV (entry : Text) : Option (Text × Text) :=
  if '=' ∈ entry then some ((SplitN2 '=' entry).1, TrimSpace (SplitN2 '=' entry).2)
  else none

/-- The key `k` occurs in the entries with a non-empty trimmed value. -/
def HasValue (entries : List Text) (k : Text) : Prop :=
  ∃ e ∈ entries, ∃ v, entryKV e = some (k, v) ∧ v ≠ []

/-- The trimmed value of the first entry of key `k` whose trimmed value is not empty. -/
def firstValue : List Text → Text → Option Text
  | [], _ => none
  | e :: rest, k =>
    match entryKV e with
    | some (k1, v) => if k1 = k ∧ v ≠ [] then some v else firstValue rest k
    | none => firstValue rest k

/-- What the loop of `gameIDFromEnviron` makes of one entry: the priority index, the key and
the trimmed value, when the key is configured and the value is not empty. -/
def candidate (s : Scanner) (entry : Text) : Option (Nat × Text × Text) :=
  match entryKV entry with
  | none => none
  | some (k, v) =>
    if k = [] then none
    else
      match mapLookup s.envKeyIndex k with
      | none => none
      | some idx => if v = [] then none else some (idx, k, v)

/-- The priority index of a key: its position in the configured key list (the length of the
list for a key that is not configured). -/
def priorityIndex : List Text → Text → Nat
  | [], _ => 0
  | a :: rest, k => if a = k then 0 else priorityIndex rest k + 1

/-- The first occurrences of the elements of a list, in the order of the list: an element is
kept where it occurs first and dropped where it occurs again. -/
def firstOccurrences : List Text → List Text
  | [] => []
  | a :: rest => a :: (firstOccurrences rest).filter (fun b => decide (b ≠ a))

/-- The configured key list of the keys as given: every key trimmed of white space, the empty
ones dropped, and every key kept where it occurs first. -/
def configuredKeys (envKeys : List Text) : List Text :=
  firstOccurrences ((envKeys.map TrimSpace).filter (fun k => decide (k ≠ [])))

/-- The index map agrees with the key list: the keys are distinct and not empty, and the map
sends every key to its position in the list. -/
def KeyIndexOK (keys : List Text) (idx : List (Text × Nat)) : Prop :=
  keys.Nodup ∧ (∀ k ∈ keys, k ≠ []) ∧
    ∀ k, mapLookup idx k = if k ∈ keys then some (priorityIndex keys k) else none

/-- A stand-in for `json.Unmarshal` that agrees with it on the one document
`{"version": -1}`, which it decodes to a record of version -1 with every other field zero;
it rejects every other text. -/
def versionMinusOneDecoder (data : Text) : Option File :=
  if data = "\x7b\"version\": -1\x7d".toList then some { File.zero with Version := -1 } else none

/-- The value of a key in a Go map kept as an association list (`nil` has no entries). -/
def mapGet (m : Option (List (Text × Text))) (k : Text) : Option Text :=
  match m with
  | none => none
  | some l =>
    match l.find? (fun kv => decide (kv.1 = k)) with
    | none => none
    | some kv => some kv.2

theorem dropRightWhile_of_all_false (p : Char → Bool) (s : Text)
    (h : ∀ c ∈ s, p c = false) : dropRightWhile p s = s := by
  induction s with
  | nil => rfl
  | cons c cs ih =>
    have hc : p c = false := h c (List.mem_cons_self _ _)
    have ih1 := ih (fun d hd => h d (List.mem_cons_of_mem _ hd))
    cases cs with
    | nil => simp [dropRightWhile, hc]
    | cons d ds =>
      rw [dropRightWhile, ih1]

theorem dropWhile_of_all_false (p : Char → Bool) (s : Text)
    (h : ∀ c ∈ s, p c = false) : s.dropWhile p = s := by
  cases s with
  | nil => rfl
  | cons c cs => simp [List.dropWhile, h c (List.mem_cons_self _ _)]

theorem TrimSpace_of_no_space (s : Text) (h : ∀ c ∈ s, isSpace c = false) :
    TrimSpace s = s := by
  unfold TrimSpace
  rw [dropWhile_of_all_false _ _ h, dropRightWhile_of_all_false _ _ h]

theorem digitVal_digitChar (d : Nat) (h : d < 10) : digitVal (digitChar d) = some d := by
  interval_cases d <;> rfl

theorem digitChar_toNat (d : Nat) (h : d < 10) : (digitChar d).toNat = 48 + d := by
  interval_cases d <;> rfl

/-- Reading back the digits that `natDigits` writes in front of `acc`. -/
theorem parseDigits_natDigits (fuel : Nat) :
    ∀ (n : Nat) (acc : Text), n < fuel →
      parseDigits (natDigits fuel n acc) 0 = parseDigits acc n := by
  induction fuel with
  | zero => intro n acc h; omega
  | succ f ih =>
    intro n acc h
    unfold natDigits
    split
    · rename_i h10
      simp [parseDigits, digitVal_digitChar n h10]
    · rename_i h10
      rw [ih (n / 10) _ (by omega)]
      simp only [parseDigits, digitVal_digitChar (n % 10) (Nat.mod_lt _ (by decide))]
      congr 1
      omega

theorem natDigits_chars (fuel : Nat) :
    ∀ (n : Nat) (acc : Text) (c : Char), c ∈ natDigits fuel n acc →
      c ∈ acc ∨ (48 ≤ c.toNat ∧ c.toNat ≤ 57) := by
  induction fuel with
  | zero => intro n acc c h; exact Or.inl h
  | succ f ih =>
    intro n acc c h
    unfold natDigits at h
    split at h
    · rename_i h10
      rcases List.mem_cons.1 h with rfl | h
      · right; rw [digitChar_toNat n h10]; omega
      · exact Or.inl h
    · rcases ih _ _ _ h with h | h
      · rcases List.mem_cons.1 h with rfl | h
        · right; rw [digitChar_toNat _ (Nat.mod_lt _ (by decide))]
          have := Nat.mod_lt n (show 10 > 0 by decide); omega
        · exact Or.inl h
      · exact Or.inr h

theorem natDigits_ne_nil_of_acc (fuel : Nat) :
    ∀ (n : Nat) (acc : Text), acc ≠ [] → natDigits fuel n acc ≠ [] := by
  induction fuel with
  | zero => intro n acc h; exact h
  | succ f ih =>
    intro n acc h
    unfold natDigits
    split
    · simp
    · exact ih _ _ (by simp)

theorem natDigits_ne_nil (fuel n : Nat) : natDigits (fuel + 1) n [] ≠ [] := by
  unfold natDigits
  split
  · simp
  · exact natDigits_ne_nil_of_acc _ _ _ (by simp)

/-- The text of a non-negative integer consists of decimal digits only. -/
theorem Itoa_chars (i : Int) (h : 0 ≤ i) (c : Char) (hc : c ∈ Itoa i) :
    48 ≤ c.toNat ∧ c.toNat ≤ 57 := by
  unfold Itoa at hc
  rw [if_neg (by omega)] at hc
  rcases natDigits_chars _ _ _ _ hc with h | h
  · simp at h
  · exact h

theorem Itoa_ne_nil (i : Int) : Itoa i ≠ [] := by
  unfold Itoa
  split
  · simp
  · exact natDigits_ne_nil _ _

theorem Atoi_Itoa (i : Int) (h0 : 0 ≤ i) (h1 : i ≤ maxInt) : Atoi (Itoa i) = some i := by
  have hne := Itoa_ne_nil i
  have hch := Itoa_chars i h0
  have hval : parseDigits (Itoa i) 0 = some i.natAbs := by
    unfold Itoa
    rw [if_neg (by omega), parseDigits_natDigits _ _ _ (by omega)]
    rfl
  cases hI : Itoa i with
  | nil => exact absurd hI hne
  | cons c cs =>
    rw [hI] at hch hval
    have hc := hch c (List.mem_cons_self _ _)
    have hplus : c ≠ '+' := by
      intro hh; rw [hh] at hc; revert hc; decide
    have hminus : c ≠ '-' := by
      intro hh; rw [hh] at hc; revert hc; decide
    unfold Atoi
    simp only [hplus, hminus, if_false]
    unfold parseUnsigned
    simp only [hval, List.cons_ne_nil, if_false]
    unfold maxInt at h1
    have : ¬ (i.natAbs ≥ 9223372036854775808) := by omega
    simp only [this, if_false]
    congr 1
    omega

/-! ## Sets as key lists, sorting -/

theorem mem_insertKey {α : Type} [DecidableEq α] (seen : List α) (k x : α) :
    x ∈ insertKey seen k ↔ x ∈ seen ∨ x = k := by
  unfold insertKey
  split
  · rename_i h
    constructor
    · exact Or.inl
    · rintro (h1 | rfl)
      · exact h1
      · exact h
  · simp

theorem nodup_insertKey {α : Type} [DecidableEq α] (seen : List α) (k : α)
    (h : seen.Nodup) : (insertKey seen k).Nodup := by
  unfold insertKey
  split
  · exact h
  · rename_i hk
    rw [List.nodup_append]
    refine ⟨h, List.nodup_singleton k, ?_⟩
    intro a ha hb
    rw [List.mem_singleton] at hb
    exact hk (hb ▸ ha)

theorem mem_foldl_insertKey {α : Type} [DecidableEq α] (l : List α) :
    ∀ (seen : List α) (x : α), x ∈ l.foldl insertKey seen ↔ x ∈ seen ∨ x ∈ l := by
  induction l with
  | nil => intro seen x; simp
  | cons a l ih =>
    intro seen x
    rw [List.foldl_cons, ih, mem_insertKey, List.mem_cons]
    tauto

theorem nodup_foldl_insertKey {α : Type} [DecidableEq α] (l : List α) :
    ∀ (seen : List α), seen.Nodup → (l.foldl insertKey seen).Nodup := by
  induction l with
  | nil => intro seen h; exact h
  | cons a l ih =>
    intro seen h
    exact ih _ (nodup_insertKey _ _ h)

theorem foldl_insertKey_of_nodup {α : Type} [DecidableEq α] (l : List α) :
    ∀ (seen : List α), (seen ++ l).Nodup → l.foldl insertKey seen = seen ++ l := by
  induction l with
  | nil => intro seen _; simp
  | cons a l ih =>
    intro seen h
    have ha : a ∉ seen := by
      intro hmem
      rw [List.nodup_append] at h
      exact h.2.2 hmem (List.mem_cons_self _ _)
    rw [List.foldl_cons]
    have e : insertKey seen a = seen ++ [a] := by
      unfold insertKey; rw [if_neg ha]
    rw [e, ih]
    · simp
    · simpa using h

theorem sortInts_sorted (l : List Int) : (sortInts l).Sorted (fun a b => a ≤ b) :=
  List.sorted_insertionSort _ l

theorem sortInts_perm (l : List Int) : (sortInts l).Perm l :=
  List.perm_insertionSort _ l

theorem mem_sortInts (l : List Int) (x : Int) : x ∈ sortInts l ↔ x ∈ l :=
  (sortInts_perm l).mem_iff

theorem sortInts_nodup (l : List Int) (h : l.Nodup) : (sortInts l).Nodup :=
  (sortInts_perm l).nodup_iff.2 h

/-- A sorted list without duplicates is strictly ascending. -/
theorem sortInts_strict (l : List Int) (h : l.Nodup) : (sortInts l).Sorted (fun a b => a < b) := by
  have hs := sortInts_sorted l
  have hn := sortInts_nodup l h
  unfold List.Sorted at *
  have := hs.and hn
  refine this.imp ?_
  intro a b hab
  exact lt_of_le_of_ne hab.1 hab.2

theorem sortInts_of_strict (l : List Int) (h : l.Sorted (fun a b => a < b)) : sortInts l = l := by
  unfold sortInts
  apply List.Sorted.insertionSort_eq
  exact h.imp (fun hab => le_of_lt hab)

theorem sortInts_congr (l l' : List Int) (hl : l.Nodup) (hl' : l'.Nodup)
    (h : ∀ x, x ∈ l ↔ x ∈ l') : sortInts l = sortInts l' := by
  have hp : l.Perm l' := (List.perm_ext_iff_of_nodup hl hl').2 h
  have hp2 : (sortInts l).Perm (sortInts l') :=
    ((sortInts_perm l).trans hp).trans (sortInts_perm l').symm
  exact List.eq_of_perm_of_sorted hp2 (sortInts_sorted l) (sortInts_sorted l')

/-- The sorted key list that `FormatCPUList` and `ParseCPUList` build from the values they
insert. -/
theorem sortedKeys_congr (l l' : List Int) (h : ∀ x, x ∈ l ↔ x ∈ l') :
    sortInts (l.foldl insertKey []) = sortInts (l'.foldl insertKey []) := by
  apply sortInts_congr
  · exact nodup_foldl_insertKey _ _ List.nodup_nil
  · exact nodup_foldl_insertKey _ _ List.nodup_nil
  · intro x
    simp [mem_foldl_insertKey, h]

/-! ## `FormatCPUList` as the rendering of runs -/

theorem wrapInt_of_inRange (i : Int) (h0 : minInt ≤ i) (h1 : i ≤ maxInt) : wrapInt i = i := by
  unfold wrapInt
  unfold minInt at h0
  unfold maxInt at h1
  omega

theorem renderRun_ne_nil (r : Int × Int) : renderRun r ≠ [] := by
  unfold renderRun
  split
  · exact Itoa_ne_nil _
  · simp

theorem flush_nil (s e : Int) : flush [] s e = renderRun (s, e) := by
  unfold flush renderRun
  simp

theorem flush_of_ne_nil (b : Text) (hb : b ≠ []) (s e : Int) :
    flush b s e = b ++ ',' :: renderRun (s, e) := by
  have hl : b.length > 0 := List.length_pos.2 hb
  unfold flush renderRun
  simp only [hl, if_true]
  split <;> simp

theorem foldl_flush_of_ne_nil (rs : List (Int × Int)) :
    ∀ (b : Text), b ≠ [] →
      rs.foldl (fun b r => flush b r.1 r.2) b = b ++ commaAll (rs.map renderRun) := by
  induction rs with
  | nil => intro b _; simp [commaAll]
  | cons r rs ih =>
    intro b hb
    rw [List.foldl_cons, flush_of_ne_nil b hb, ih _ (by simp)]
    simp [commaAll]

theorem foldl_flush_nil (rs : List (Int × Int)) :
    rs.foldl (fun b r => flush b r.1 r.2) [] = joinComma (rs.map renderRun) := by
  cases rs with
  | nil => rfl
  | cons r rs =>
    rw [List.foldl_cons, flush_nil, foldl_flush_of_ne_nil _ _ (renderRun_ne_nil _)]
    rfl

/-- The loop of `FormatCPUList` flushes the runs of the list it walks, provided the list is
strictly ascending from `prev` and within the range of `int` (so that `prev+1` never wraps). -/
theorem formatLoop_eq (rest : List Int) :
    ∀ (start prev : Int) (b : Text), minInt ≤ prev → List.Chain (fun a b => a < b) prev rest →
      (∀ c ∈ rest, c ≤ maxInt) →
      formatLoop rest start prev b =
        (runsFrom rest start prev).foldl (fun b r => flush b r.1 r.2) b := by
  induction rest with
  | nil => intro start prev b _ _ _; simp [formatLoop, runsFrom]
  | cons cpu rest ih =>
    intro start prev b hmin hch hmax
    have hlt : prev < cpu := (List.chain_cons.1 hch).1
    have hch2 : List.Chain (fun a b => a < b) cpu rest := (List.chain_cons.1 hch).2
    have hcpu : cpu ≤ maxInt := hmax cpu (List.mem_cons_self _ _)
    have hw : wrapInt (prev + 1) = prev + 1 :=
      wrapInt_of_inRange _ (by omega) (by omega)
    have hmax2 : ∀ c ∈ rest, c ≤ maxInt := fun c hc => hmax c (List.mem_cons_of_mem _ hc)
    unfold formatLoop runsFrom
    rw [hw]
    split
    · exact ih _ _ _ (by omega) hch2 hmax2
    · rw [List.foldl_cons]
      exact ih _ _ _ (by omega) hch2 hmax2

/-- The function `FormatCPUList` renders the runs of the sorted, duplicate-free list of its
argument, joined by commas. -/
theorem FormatCPUList_eq (cpus : List Int) (h : InRange cpus) :
    FormatCPUList cpus = joinComma ((runsOf (sortInts (cpus.foldl insertKey []))).map renderRun) := by
  unfold FormatCPUList
  split
  · rename_i h0
    have : cpus = [] := List.length_eq_zero.1 h0
    subst this
    rfl
  · have hstrict := sortInts_strict (cpus.foldl insertKey [])
      (nodup_foldl_insertKey _ _ List.nodup_nil)
    have hmem : ∀ c ∈ sortInts (cpus.foldl insertKey []), minInt ≤ c ∧ c ≤ maxInt := by
      intro c hc
      rw [mem_sortInts, mem_foldl_insertKey] at hc
      rcases hc with hc | hc
      · simp at hc
      · exact h c hc
    revert hstrict hmem
    cases sortInts (cpus.foldl insertKey []) with
    | nil => intro _ _; rfl
    | cons u0 rest =>
      intro hstrict hmem
      simp only [runsOf]
      rw [formatLoop_eq rest u0 u0 [] (hmem u0 (List.mem_cons_self _ _)).1
        (List.chain_iff_pairwise.2 hstrict)
        (fun c hc => (hmem c (List.mem_cons_of_mem _ hc)).2)]
      exact foldl_flush_nil _

/-! ## Parsing a rendered list of runs -/

theorem Split_of_not_mem (sep : Char) (x : Text) (h : sep ∉ x) : Split sep x = [x] := by
  induction x with
  | nil => rfl
  | cons c cs ih =>
    have hc : c ≠ sep := fun e => h (e ▸ List.mem_cons_self _ _)
    have ih1 := ih (fun hm => h (List.mem_cons_of_mem _ hm))
    simp [Split, hc, ih1]

theorem Split_append_sep (sep : Char) (x rest : Text) (h : sep ∉ x) :
    Split sep (x ++ sep :: rest) = x :: Split sep rest := by
  induction x with
  | nil => simp [Split]
  | cons c cs ih =>
    have hc : c ≠ sep := fun e => h (e ▸ List.mem_cons_self _ _)
    have ih1 := ih (fun hm => h (List.mem_cons_of_mem _ hm))
    simp [Split, hc, ih1]

theorem Split_joinComma_aux (xs : List Text) :
    ∀ (x : Text), ',' ∉ x → (∀ y ∈ xs, ',' ∉ y) → Split ',' (x ++ commaAll xs) = x :: xs := by
  induction xs with
  | nil => intro x hx _; simpa [commaAll] using Split_of_not_mem _ x hx
  | cons y ys ih =>
    intro x hx hys
    simp only [commaAll]
    rw [Split_append_sep _ _ _ hx]
    rw [ih y (hys y (List.mem_cons_self _ _)) (fun z hz => hys z (List.mem_cons_of_mem _ hz))]

theorem Split_joinComma (xs : List Text) (hne : xs ≠ []) (h : ∀ y ∈ xs, ',' ∉ y) :
    Split ',' (joinComma xs) = xs := by
  cases xs with
  | nil => exact absurd rfl hne
  | cons x xs =>
    exact Split_joinComma_aux xs x (h x (List.mem_cons_self _ _))
      (fun y hy => h y (List.mem_cons_of_mem _ hy))

theorem SplitN2_append_sep (sep : Char) (x y : Text) (h : sep ∉ x) :
    SplitN2 sep (x ++ sep :: y) = (x, y) := by
  induction x with
  | nil => simp [SplitN2]
  | cons c cs ih =>
    have hc : c ≠ sep := fun e => h (e ▸ List.mem_cons_self _ _)
    have ih1 := ih (fun hm => h (List.mem_cons_of_mem _ hm))
    simp [SplitN2, hc, ih1]

theorem digit_not_space (c : Char) (h : 48 ≤ c.toNat ∧ c.toNat ≤ 57) : isSpace c = false := by
  unfold isSpace
  simp only [Bool.or_eq_false_iff, Bool.and_eq_false_iff, decide_eq_false_iff_not, beq_eq_false_iff_ne]
  omega

theorem Itoa_no_space (i : Int) (h : 0 ≤ i) : ∀ c ∈ Itoa i, isSpace c = false :=
  fun c hc => digit_not_space c (Itoa_chars i h c hc)

theorem Itoa_no_dash (i : Int) (h : 0 ≤ i) : '-' ∉ Itoa i := by
  intro hc
  have := Itoa_chars i h _ hc
  revert this; decide

theorem Itoa_no_comma (i : Int) (h : 0 ≤ i) : ',' ∉ Itoa i := by
  intro hc
  have := Itoa_chars i h _ hc
  revert this; decide

theorem renderRun_no_comma (r : Int × Int) (h1 : 0 ≤ r.1) (h2 : 0 ≤ r.2) : ',' ∉ renderRun r := by
  unfold renderRun
  split
  · exact Itoa_no_comma _ h1
  · intro hc
    simp only [List.mem_append, List.mem_singleton] at hc
    rcases hc with (hc | hc) | hc
    · exact Itoa_no_comma _ h1 hc
    · revert hc; decide
    · exact Itoa_no_comma _ h2 hc

theorem renderRun_no_space (r : Int × Int) (h1 : 0 ≤ r.1) (h2 : 0 ≤ r.2) :
    ∀ c ∈ renderRun r, isSpace c = false := by
  intro c hc
  unfold renderRun at hc
  split at hc
  · exact Itoa_no_space _ h1 c hc
  · simp only [List.mem_append, List.mem_singleton] at hc
    rcases hc with (hc | hc) | hc
    · exact Itoa_no_space _ h1 c hc
    · subst hc; decide
    · exact Itoa_no_space _ h2 c hc

theorem rangeList_self (a : Int) : rangeList a a = [a] := by
  unfold rangeList
  have e : (a - a + 1).toNat = 1 := by omega
  rw [e]
  simp [List.range_succ]

theorem rangeList_succ (a b : Int) (h : a ≤ b) : rangeList a (b + 1) = rangeList a b ++ [b + 1] := by
  unfold rangeList
  have e : (b + 1 - a + 1).toNat = (b - a + 1).toNat + 1 := by omega
  rw [e, List.range_succ, List.map_append]
  congr 1
  simp only [List.map_cons, List.map_nil]
  congr 1
  omega

theorem mem_rangeList (a b x : Int) : x ∈ rangeList a b ↔ a ≤ x ∧ x ≤ b := by
  unfold rangeList
  simp only [List.mem_map, List.mem_range]
  constructor
  · rintro ⟨i, hi, rfl⟩
    omega
  · intro h
    exact ⟨(x - a).toNat, by omega, by omega⟩

/-- Parsing the rendered runs inserts the integers they cover, unless a run of more than one
integer ends at the largest `int`, where the range loop never exits. -/
theorem parseParts_renderRuns (rs : List (Int × Int)) :
    ∀ (seen : List Int), (∀ r ∈ rs, 0 ≤ r.1 ∧ r.1 ≤ r.2 ∧ r.2 ≤ maxInt) →
      parseParts (rs.map renderRun) seen =
        if runsDiverge rs then .diverges else .ok ((expandRuns rs).foldl insertKey seen) := by
  induction rs with
  | nil => intro seen _; rfl
  | cons r rs ih =>
    intro seen h
    obtain ⟨h0, h1, h2⟩ := h r (List.mem_cons_self _ _)
    have ih1 := fun seen => ih seen (fun q hq => h q (List.mem_cons_of_mem _ hq))
    have htrim : TrimSpace (renderRun r) = renderRun r :=
      TrimSpace_of_no_space _ (renderRun_no_space r h0 (by omega))
    simp only [List.map_cons, parseParts, htrim, renderRun_ne_nil, if_false]
    by_cases heq : r.1 = r.2
    · have hr : renderRun r = Itoa r.1 := by unfold renderRun; rw [if_pos heq]
      rw [hr, if_neg (Itoa_no_dash _ h0), Atoi_Itoa _ h0 (by omega)]
      simp only [ih1]
      have hd : runsDiverge (r :: rs) = runsDiverge rs := by
        simp [runsDiverge, heq]
      rw [hd]
      have he : expandRuns (r :: rs) = r.1 :: expandRuns rs := by
        simp only [expandRuns]
        rw [← heq, rangeList_self]
        rfl
      rw [he, List.foldl_cons]
    · have hr : renderRun r = Itoa r.1 ++ '-' :: Itoa r.2 := by
        unfold renderRun; rw [if_neg heq]; simp
      have hmem : '-' ∈ renderRun r := by rw [hr]; simp
      rw [if_pos hmem, hr, SplitN2_append_sep _ _ _ (Itoa_no_dash _ h0)]
      simp only []
      rw [TrimSpace_of_no_space _ (Itoa_no_space _ h0),
        TrimSpace_of_no_space _ (Itoa_no_space _ (show 0 ≤ r.2 by omega)),
        Atoi_Itoa _ h0 (by omega), Atoi_Itoa _ (by omega) h2]
      simp only []
      rw [if_neg (by omega)]
      by_cases hm : r.2 = maxInt
      · have hd : runsDiverge (r :: rs) = true := by
          have heq2 : ¬ r.1 = maxInt := fun e => heq (e.trans hm.symm)
          simp [runsDiverge, hm, heq2]
        simp [rangeLoop, hm, hd]
      · have hd : runsDiverge (r :: rs) = runsDiverge rs := by
          simp [runsDiverge, hm]
        simp only [rangeLoop, hm, if_false, ih1, hd, expandRuns, List.foldl_append]

theorem expandRuns_runsFrom (rest : List Int) :
    ∀ (start prev : Int), start ≤ prev →
      expandRuns (runsFrom rest start prev) = rangeList start prev ++ rest := by
  induction rest with
  | nil => intro start prev _; simp [runsFrom, expandRuns]
  | cons cpu rest ih =>
    intro start prev h
    unfold runsFrom
    split
    · rename_i hc
      rw [ih _ _ (by omega), hc, rangeList_succ _ _ h]
      simp
    · simp only [expandRuns]
      rw [ih _ _ (le_refl _), rangeList_self]
      simp

theorem expandRuns_runsOf (u : List Int) : expandRuns (runsOf u) = u := by
  cases u with
  | nil => rfl
  | cons u0 rest =>
    simp only [runsOf]
    rw [expandRuns_runsFrom _ _ _ (le_refl _), rangeList_self]
    rfl

/-! ## The runs of an ascending list -/

theorem mem_expandRuns (rs : List (Int × Int)) (x : Int) :
    x ∈ expandRuns rs ↔ ∃ r ∈ rs, r.1 ≤ x ∧ x ≤ r.2 := by
  induction rs with
  | nil => simp [expandRuns]
  | cons r rs ih =>
    simp only [expandRuns, List.mem_append, mem_rangeList, ih, List.mem_cons, exists_eq_or_imp]

theorem runsFrom_head (rest : List Int) :
    ∀ (start prev : Int), ∀ y ∈ (runsFrom rest start prev).head?, y.1 = start := by
  induction rest with
  | nil => intro start prev y hy; simp [runsFrom] at hy; rw [← hy]
  | cons cpu rest ih =>
    intro start prev y hy
    unfold runsFrom at hy
    split at hy
    · exact ih _ _ y hy
    · simp at hy; rw [← hy]

theorem runsFrom_bounds (rest : List Int) :
    ∀ (start prev : Int), start ≤ prev → List.Chain (fun a b => a < b) prev rest →
      ∀ r ∈ runsFrom rest start prev,
        r.1 ≤ r.2 ∧ (r.1 = start ∨ r.1 ∈ rest) ∧ (r.2 = prev ∨ r.2 ∈ rest) := by
  induction rest with
  | nil =>
    intro start prev h _ r hr
    simp [runsFrom] at hr
    subst hr
    exact ⟨h, Or.inl rfl, Or.inl rfl⟩
  | cons cpu rest ih =>
    intro start prev h hch r hr
    have hlt : prev < cpu := (List.chain_cons.1 hch).1
    have hch2 : List.Chain (fun a b => a < b) cpu rest := (List.chain_cons.1 hch).2
    unfold runsFrom at hr
    split at hr
    · obtain ⟨a, b, c⟩ := ih start cpu (by omega) hch2 r hr
      refine ⟨a, ?_, ?_⟩
      · rcases b with b | b
        · exact Or.inl b
        · exact Or.inr (List.mem_cons_of_mem _ b)
      · rcases c with c | c
        · exact Or.inr (c ▸ List.mem_cons_self _ _)
        · exact Or.inr (List.mem_cons_of_mem _ c)
    · rcases List.mem_cons.1 hr with rfl | hr
      · exact ⟨h, Or.inl rfl, Or.inl rfl⟩
      · obtain ⟨a, b, c⟩ := ih cpu cpu (le_refl _) hch2 r hr
        refine ⟨a, ?_, ?_⟩
        · rcases b with b | b
          · exact Or.inr (b ▸ List.mem_cons_self _ _)
          · exact Or.inr (List.mem_cons_of_mem _ b)
        · rcases c with c | c
          · exact Or.inr (c ▸ List.mem_cons_self _ _)
          · exact Or.inr (List.mem_cons_of_mem _ c)

theorem runsFrom_chain (rest : List Int) :
    ∀ (start prev : Int), List.Chain (fun a b => a < b) prev rest →
      (runsFrom rest start prev).Chain' (fun r q => r.2 + 1 < q.1) := by
  induction rest with
  | nil => intro start prev _; simp [runsFrom]
  | cons cpu rest ih =>
    intro start prev hch
    have hlt : prev < cpu := (List.chain_cons.1 hch).1
    have hch2 : List.Chain (fun a b => a < b) cpu rest := (List.chain_cons.1 hch).2
    unfold runsFrom
    split
    · exact ih _ _ hch2
    · rename_i hne
      rw [List.chain'_cons']
      refine ⟨?_, ih _ _ hch2⟩
      intro y hy
      rw [runsFrom_head rest cpu cpu y hy]
      show prev + 1 < cpu
      omega

/-- The runs of a strictly ascending list are its maximal runs, with bounds taken from the
list. -/
theorem runsOf_spec (u : List Int) (hu : u.Sorted (fun a b => a < b)) :
    IsMaximalRuns (runsOf u) u ∧ ∀ r ∈ runsOf u, r.1 ∈ u ∧ r.2 ∈ u := by
  cases u with
  | nil =>
    refine ⟨⟨?_, ?_, ?_⟩, ?_⟩ <;> simp [runsOf]
  | cons u0 rest =>
    have hch : List.Chain (fun a b => a < b) u0 rest := List.chain_iff_pairwise.2 hu
    have hb := runsFrom_bounds rest u0 u0 (le_refl _) hch
    refine ⟨⟨fun r hr => (hb r hr).1, runsFrom_chain rest u0 u0 hch, ?_⟩, ?_⟩
    · intro x
      rw [← mem_expandRuns, expandRuns_runsOf]
    · intro r hr
      obtain ⟨_, b, c⟩ := hb r hr
      constructor
      · rcases b with b | b
        · exact b ▸ List.mem_cons_self _ _
        · exact List.mem_cons_of_mem _ b
      · rcases c with c | c
        · exact c ▸ List.mem_cons_self _ _
        · exact List.mem_cons_of_mem _ c

theorem mem_sortedKeys (l : List Int) (x : Int) : x ∈ sortedKeys l ↔ x ∈ l := by
  unfold sortedKeys
  rw [mem_sortInts, mem_foldl_insertKey]
  simp

theorem sortedKeys_strict (l : List Int) : (sortedKeys l).Sorted (fun a b => a < b) :=
  sortInts_strict _ (nodup_foldl_insertKey _ _ List.nodup_nil)

theorem sortedKeys_of_strict (l : List Int) (h : l.Sorted (fun a b => a < b)) :
    sortedKeys l = l := by
  unfold sortedKeys
  have hn : l.Nodup := h.imp (fun hab => ne_of_lt hab)
  rw [foldl_insertKey_of_nodup l [] (by simpa using hn)]
  simpa using sortInts_of_strict l h

/-! ## Parsing a formatted list -/

theorem mem_commaAll (xs : List Text) (c : Char) (h : c ∈ commaAll xs) :
    c = ',' ∨ ∃ x ∈ xs, c ∈ x := by
  induction xs with
  | nil => simp [commaAll] at h
  | cons x xs ih =>
    simp only [commaAll, List.mem_cons, List.mem_append] at h
    rcases h with h | h | h
    · exact Or.inl h
    · exact Or.inr ⟨x, List.mem_cons_self _ _, h⟩
    · rcases ih h with h | ⟨y, hy, hc⟩
      · exact Or.inl h
      · exact Or.inr ⟨y, List.mem_cons_of_mem _ hy, hc⟩

theorem mem_joinComma (xs : List Text) (c : Char) (h : c ∈ joinComma xs) :
    c = ',' ∨ ∃ x ∈ xs, c ∈ x := by
  cases xs with
  | nil => simp [joinComma] at h
  | cons x xs =>
    simp only [joinComma, List.mem_append] at h
    rcases h with h | h
    · exact Or.inr ⟨x, List.mem_cons_self _ _, h⟩
    · rcases mem_commaAll xs c h with h | ⟨y, hy, hc⟩
      · exact Or.inl h
      · exact Or.inr ⟨y, List.mem_cons_of_mem _ hy, hc⟩

theorem joinComma_ne_nil (x : Text) (xs : List Text) (h : x ≠ []) : joinComma (x :: xs) ≠ [] := by
  simp [joinComma, h]

/-- Re-parsing the text that `FormatCPUList` produces for non-negative CPUs: the sorted,
duplicate-free list comes back, unless a run of two or more CPUs ends at the largest `int`,
in which case `ParseCPUList` does not return. -/
theorem ParseCPUList_FormatCPUList (l : List Int) (h : ∀ c ∈ l, 0 ≤ c ∧ c ≤ maxInt) :
    ParseCPUList (FormatCPUList l) =
      if runsDiverge (runsOf (sortedKeys l)) then .diverges else .ok (sortedKeys l) := by
  have hin : InRange l := fun c hc => ⟨by have := (h c hc).1; unfold minInt; omega, (h c hc).2⟩
  rw [FormatCPUList_eq l hin]
  change ParseCPUList (joinComma ((runsOf (sortedKeys l)).map renderRun)) = _
  have hstrict := sortedKeys_strict l
  obtain ⟨⟨hle, _, _⟩, hmem⟩ := runsOf_spec (sortedKeys l) hstrict
  have hrs : ∀ r ∈ runsOf (sortedKeys l), 0 ≤ r.1 ∧ r.1 ≤ r.2 ∧ r.2 ≤ maxInt := by
    intro r hr
    obtain ⟨a, b⟩ := hmem r hr
    rw [mem_sortedKeys] at a b
    exact ⟨(h _ a).1, hle r hr, (h _ b).2⟩
  have hnospace : ∀ c ∈ joinComma ((runsOf (sortedKeys l)).map renderRun), isSpace c = false := by
    intro c hc
    rcases mem_joinComma _ c hc with rfl | ⟨x, hx, hcx⟩
    · decide
    · obtain ⟨r, hr, rfl⟩ := List.mem_map.1 hx
      obtain ⟨a, b, _⟩ := hrs r hr
      exact renderRun_no_space r a (by omega) c hcx
  unfold ParseCPUList
  simp only [TrimSpace_of_no_space _ hnospace]
  have hexp := expandRuns_runsOf (sortedKeys l)
  revert hexp hrs
  cases hR : runsOf (sortedKeys l) with
  | nil =>
    intro hrs hexp
    simp only [expandRuns] at hexp
    rw [← hexp]
    simp [joinComma, runsDiverge]
  | cons r rs =>
    intro hrs hexp
    rw [if_neg (by simpa using joinComma_ne_nil _ _ (renderRun_ne_nil r))]
    rw [Split_joinComma _ (by simp)]
    · rw [parseParts_renderRuns _ _ hrs]
      by_cases hd : runsDiverge (r :: rs) = true
      · simp only [hd, if_true]
      · have e := sortedKeys_of_strict _ hstrict
        have hd1 : runsDiverge (r :: rs) = false := by simpa using hd
        rw [hd1, hexp]
        simp only [Bool.false_eq_true, if_false]
        exact congrArg Outcome.ok e
    · intro y hy
      obtain ⟨q, hq, rfl⟩ := List.mem_map.1 hy
      obtain ⟨a, b, _⟩ := hrs q hq
      exact renderRun_no_comma q a (by omega)

/-! ## Uniqueness of the maximal runs -/

theorem rangeList_of_lt (a b : Int) (h : b < a) : rangeList a b = [] := by
  unfold rangeList
  have e : (b - a + 1).toNat = 0 := by omega
  rw [e]
  rfl

theorem rangeList_cons (a b : Int) (h : a ≤ b) : rangeList a b = a :: rangeList (a + 1) b := by
  unfold rangeList
  have e : (b - a + 1).toNat = (b - (a + 1) + 1).toNat + 1 := by omega
  rw [e, List.range_succ_eq_map]
  simp only [List.map_cons, List.map_map]
  congr 1
  · simp
  · apply List.map_congr_left
    intro i _
    simp only [Function.comp]
    push_cast
    omega

theorem rangeList_sorted (a b : Int) : (rangeList a b).Sorted (fun x y => x < y) := by
  unfold rangeList List.Sorted
  rw [List.pairwise_map]
  refine (List.pairwise_lt_range _).imp ?_
  intro i j hij
  omega

/-- Each run is a non-empty interval and the next run starts after a gap. -/
theorem chain_tail {rs : List (Int × Int)} {r : Int × Int}
    (h : (r :: rs).Chain' (fun r q => r.2 + 1 < q.1)) :
    rs.Chain' (fun r q => r.2 + 1 < q.1) ∧ ∀ y ∈ rs.head?, r.2 + 1 < y.1 := by
  rw [List.chain'_cons'] at h
  exact ⟨h.2, h.1⟩

theorem expandRuns_lower (rs : List (Int × Int)) :
    ∀ (r : Int × Int), (∀ q ∈ r :: rs, q.1 ≤ q.2) →
      (r :: rs).Chain' (fun r q => r.2 + 1 < q.1) → ∀ x ∈ expandRuns (r :: rs), r.1 ≤ x := by
  induction rs with
  | nil =>
    intro r _ _ x hx
    simp only [expandRuns, List.append_nil, mem_rangeList] at hx
    exact hx.1
  | cons q rs ih =>
    intro r hle hch x hx
    simp only [expandRuns, List.mem_append, mem_rangeList] at hx
    rcases hx with hx | hx
    · exact hx.1
    · obtain ⟨hch2, hhead⟩ := chain_tail hch
      have h1 := ih q (fun t ht => hle t (List.mem_cons_of_mem _ ht)) hch2 x
        (by simpa [expandRuns, mem_rangeList] using hx)
      have h2 := hhead q (by simp)
      have h3 := hle r (List.mem_cons_self _ _)
      omega

theorem expandRuns_sorted (rs : List (Int × Int)) :
    (∀ q ∈ rs, q.1 ≤ q.2) → rs.Chain' (fun r q => r.2 + 1 < q.1) →
      (expandRuns rs).Sorted (fun x y => x < y) := by
  induction rs with
  | nil => intro _ _; exact List.sorted_nil
  | cons r rs ih =>
    intro hle hch
    obtain ⟨hch2, hhead⟩ := chain_tail hch
    have hle2 : ∀ q ∈ rs, q.1 ≤ q.2 := fun t ht => hle t (List.mem_cons_of_mem _ ht)
    simp only [expandRuns]
    unfold List.Sorted
    rw [List.pairwise_append]
    refine ⟨rangeList_sorted _ _, ih hle2 hch2, ?_⟩
    intro x hx y hy
    rw [mem_rangeList] at hx
    cases rs with
    | nil => simp [expandRuns] at hy
    | cons q rs2 =>
      have h1 := expandRuns_lower rs2 q hle2 hch2 y hy
      have h2 := hhead q (by simp)
      omega

theorem runsFrom_rangeList (rs : List (Int × Int)) :
    (∀ q ∈ rs, q.1 ≤ q.2) → rs.Chain' (fun r q => r.2 + 1 < q.1) →
    ∀ (n : Nat) (start p hi : Int), hi - p = n → (∀ y ∈ rs.head?, hi + 1 < y.1) →
      runsFrom (rangeList (p + 1) hi ++ expandRuns rs) start p = (start, hi) :: rs := by
  induction rs with
  | nil =>
    intro _ _ n
    induction n with
    | zero =>
      intro start p hi hn _
      have : hi = p := by omega
      subst this
      rw [rangeList_of_lt _ _ (by omega)]
      simp [expandRuns, runsFrom]
    | succ n ihn =>
      intro start p hi hn hh
      rw [rangeList_cons _ _ (by omega)]
      simp only [List.cons_append, runsFrom, if_true]
      exact ihn start (p + 1) hi (by omega) hh
  | cons q rs ih =>
    intro hle hch n
    obtain ⟨hch2, hhead⟩ := chain_tail hch
    have hle2 : ∀ t ∈ rs, t.1 ≤ t.2 := fun t ht => hle t (List.mem_cons_of_mem _ ht)
    have hq := hle q (List.mem_cons_self _ _)
    induction n with
    | zero =>
      intro start p hi hn hh
      have : hi = p := by omega
      subst this
      have hgap := hh q (by simp)
      rw [rangeList_of_lt _ _ (by omega)]
      simp only [List.nil_append, expandRuns]
      rw [rangeList_cons _ _ hq]
      simp only [List.cons_append, runsFrom]
      rw [if_neg (by omega)]
      congr 1
      exact ih hle2 hch2 (q.2 - q.1).toNat q.1 q.1 q.2 (by omega) hhead
    | succ n ihn =>
      intro start p hi hn hh
      rw [rangeList_cons _ _ (by omega)]
      simp only [List.cons_append, runsFrom, if_true]
      exact ihn start (p + 1) hi (by omega) hh

theorem runsOf_expandRuns (rs : List (Int × Int)) (hle : ∀ q ∈ rs, q.1 ≤ q.2)
    (hch : rs.Chain' (fun r q => r.2 + 1 < q.1)) : runsOf (expandRuns rs) = rs := by
  cases rs with
  | nil => rfl
  | cons r rs =>
    obtain ⟨hch2, hhead⟩ := chain_tail hch
    simp only [expandRuns]
    rw [rangeList_cons _ _ (hle r (List.mem_cons_self _ _))]
    simp only [List.cons_append, runsOf]
    have hr := hle r (List.mem_cons_self _ _)
    exact runsFrom_rangeList rs (fun t ht => hle t (List.mem_cons_of_mem _ ht)) hch2
      (r.2 - r.1).toNat r.1 r.1 r.2 (by omega) hhead

/-- The maximal runs of a set are unique: they are the runs of its sorted list. -/
theorem IsMaximalRuns_unique (rs : List (Int × Int)) (S : List Int) (h : IsMaximalRuns rs S) :
    rs = runsOf (sortedKeys S) := by
  obtain ⟨hle, hch, hcov⟩ := h
  have hs := expandRuns_sorted rs hle hch
  have e : expandRuns rs = sortedKeys S := by
    rw [← sortedKeys_of_strict _ hs]
    unfold sortedKeys
    apply sortedKeys_congr
    intro x
    rw [mem_expandRuns, hcov x]
  rw [← e, runsOf_expandRuns rs hle hch]

/-! ## Results of `ParseCPUList` -/

theorem mem_dropRightWhile (p : Char → Bool) (s : Text) (c : Char)
    (h : c ∈ dropRightWhile p s) : c ∈ s := by
  induction s with
  | nil => simp [dropRightWhile] at h
  | cons d ds ih =>
    unfold dropRightWhile at h
    split at h
    · split at h
      · simp at h
      · rw [List.mem_singleton] at h
        exact h ▸ List.mem_cons_self _ _
    · rcases List.mem_cons.1 h with h | h
      · exact h ▸ List.mem_cons_self _ _
      · exact List.mem_cons_of_mem _ (ih h)

theorem mem_TrimSpace (s : Text) (c : Char) (h : c ∈ TrimSpace s) : c ∈ s := by
  unfold TrimSpace at h
  exact (List.dropWhile_suffix _).subset (mem_dropRightWhile _ _ _ h)

theorem SplitN2_fst_no_sep (sep : Char) (s : Text) : sep ∉ (SplitN2 sep s).1 := by
  induction s with
  | nil => simp [SplitN2]
  | cons c cs ih =>
    unfold SplitN2
    split
    · simp
    · rename_i hc
      simp only [List.mem_cons, not_or]
      exact ⟨fun e => hc e.symm, ih⟩

theorem Atoi_bounds (s : Text) (v : Int) (h : Atoi s = some v) : minInt ≤ v ∧ v ≤ maxInt := by
  unfold Atoi at h
  unfold minInt maxInt
  split at h
  · simp at h
  · split at h
    · split at h
      · simp at h
      · split at h
        · simp at h
        · simp only [Option.some.injEq] at h; omega
    · split at h
      · split at h
        · simp at h
        · split at h
          · simp at h
          · simp only [Option.some.injEq] at h; omega
      · split at h
        · simp at h
        · split at h
          · simp at h
          · simp only [Option.some.injEq] at h; omega

theorem Atoi_nonneg_of_no_dash (s : Text) (v : Int) (hd : '-' ∉ s) (h : Atoi s = some v) :
    0 ≤ v := by
  unfold Atoi at h
  split at h
  · simp at h
  · rename_i c cs
    have hc : c ≠ '-' := fun e => hd (e ▸ List.mem_cons_self _ _)
    split at h
    · split at h
      · simp at h
      · split at h
        · simp at h
        · simp only [Option.some.injEq] at h; omega
    · split at h
      · simp at h
      · split at h
        · simp at h
        · simp only [Option.some.injEq] at h; omega

/-- The bounds of a range token: the lower bound is never negative. -/
theorem rangeBounds_nonneg (t : Text) (lo hi : Int) (h : rangeBounds t = some (lo, hi)) :
    0 ≤ lo ∧ hi ≤ maxInt := by
  unfold rangeBounds at h
  split at h
  · split at h
    · rename_i a b ha hb
      simp only [Option.some.injEq, Prod.mk.injEq] at h
      obtain ⟨rfl, rfl⟩ := h
      refine ⟨Atoi_nonneg_of_no_dash _ _ ?_ ha, (Atoi_bounds _ _ hb).2⟩
      intro hm
      exact SplitN2_fst_no_sep _ _ (mem_TrimSpace _ _ hm)
    · simp at h
  · simp at h

theorem tokenCPUs_bounds (t : Text) (x : Int) (h : x ∈ tokenCPUs t) : 0 ≤ x ∧ x ≤ maxInt := by
  unfold tokenCPUs at h
  split at h
  · split at h
    · rename_i lo hi hb
      obtain ⟨a, b⟩ := rangeBounds_nonneg t lo hi hb
      rw [mem_rangeList] at h
      omega
    · simp at h
  · rename_i hd
    split at h
    · rename_i v hv
      rw [List.mem_singleton] at h
      subst h
      exact ⟨Atoi_nonneg_of_no_dash _ _ hd hv, (Atoi_bounds _ _ hv).2⟩
    · simp at h

/-- One step of the loop of `ParseCPUList`, in terms of the token vocabulary. -/
theorem parseParts_cons (p : Text) (ps : List Text) (seen : List Int) :
    parseParts (p :: ps) seen =
      if TrimSpace p = [] then parseParts ps seen
      else if '-' ∈ TrimSpace p then
        match rangeBounds (TrimSpace p) with
        | none =>
          match Atoi (TrimSpace (SplitN2 '-' (TrimSpace p)).1) with
          | none => .error (.invalidCPU (SplitN2 '-' (TrimSpace p)).1)
          | some _ => .error (.invalidCPU (SplitN2 '-' (TrimSpace p)).2)
        | some (lo, hi) =>
          if hi < lo then .error (.invalidRange (TrimSpace p))
          else if hi = maxInt then .diverges
          else parseParts ps ((rangeList lo hi).foldl insertKey seen)
      else
        match Atoi (TrimSpace p) with
        | none => .error (.invalidCPU (TrimSpace p))
        | some cpu => parseParts ps (insertKey seen cpu) := by
  rw [parseParts]
  simp only []
  by_cases h1 : TrimSpace p = []
  · simp only [h1, if_true]
  · simp only [h1, if_false]
    by_cases h2 : '-' ∈ TrimSpace p
    · simp only [h2, if_true, rangeBounds]
      cases ha : Atoi (TrimSpace (SplitN2 '-' (TrimSpace p)).1) with
      | none => rfl
      | some lo =>
        cases hb : Atoi (TrimSpace (SplitN2 '-' (TrimSpace p)).2) with
        | none => rfl
        | some hi =>
          simp only [gt_iff_lt, rangeLoop]
          by_cases h3 : hi < lo
          · simp only [h3, if_true]
          · simp only [h3, if_false]
            by_cases h4 : hi = maxInt
            · simp only [h4, if_true]
            · simp only [h4, if_false]
    · simp only [h2, if_false]

theorem TrimSpace_nil : TrimSpace [] = [] := rfl

theorem tokenCPUs_nil : tokenCPUs [] = [] := by
  simp [tokenCPUs, Atoi]

theorem parseParts_ok (ps : List Text) :
    ∀ (seen out : List Int), parseParts ps seen = .ok out → seen.Nodup →
      out.Nodup ∧ ∀ x, x ∈ out ↔ x ∈ seen ∨ ∃ p ∈ ps, x ∈ tokenCPUs (TrimSpace p) := by
  induction ps with
  | nil =>
    intro seen out h hn
    simp only [parseParts, Outcome.ok.injEq] at h
    subst h
    exact ⟨hn, by simp⟩
  | cons p ps ih =>
    intro seen out h hn
    rw [parseParts_cons] at h
    by_cases h1 : TrimSpace p = []
    · rw [if_pos h1] at h
      obtain ⟨a, b⟩ := ih _ _ h hn
      refine ⟨a, fun x => ?_⟩
      rw [b x]
      simp [h1, tokenCPUs_nil]
    · rw [if_neg h1] at h
      by_cases h2 : '-' ∈ TrimSpace p
      · rw [if_pos h2] at h
        cases hb : rangeBounds (TrimSpace p) with
        | none =>
          rw [hb] at h
          simp only [] at h
          split at h <;> simp at h
        | some b =>
          obtain ⟨lo, hi⟩ := b
          rw [hb] at h
          simp only [] at h
          by_cases h3 : hi < lo
          · rw [if_pos h3] at h; simp at h
          · rw [if_neg h3] at h
            by_cases h4 : hi = maxInt
            · rw [if_pos h4] at h; simp at h
            · rw [if_neg h4] at h
              obtain ⟨a, b⟩ := ih _ _ h (nodup_foldl_insertKey _ _ hn)
              refine ⟨a, fun x => ?_⟩
              rw [b x, mem_foldl_insertKey]
              have ht : tokenCPUs (TrimSpace p) = rangeList lo hi := by
                simp [tokenCPUs, h2, hb]
              simp only [List.mem_cons, exists_eq_or_imp, ht]
              tauto
      · rw [if_neg h2] at h
        cases ha : Atoi (TrimSpace p) with
        | none => rw [ha] at h; simp at h
        | some cpu =>
          rw [ha] at h
          simp only [] at h
          obtain ⟨a, b⟩ := ih _ _ h (nodup_insertKey _ _ hn)
          refine ⟨a, fun x => ?_⟩
          rw [b x, mem_insertKey]
          have ht : tokenCPUs (TrimSpace p) = [cpu] := by
            simp [tokenCPUs, h2, ha]
          simp only [List.mem_cons, exists_eq_or_imp, ht, List.mem_singleton, List.not_mem_nil,
            or_false]
          tauto

/-- The list that a successful `ParseCPUList` returns: strictly ascending, made of
non-negative values of `int`, and holding exactly the CPUs of the tokens. -/
theorem ParseCPUList_ok (s : Text) (cpus : List Int) (h : ParseCPUList s = .ok cpus) :
    cpus.Sorted (fun a b => a < b) ∧ (∀ x ∈ cpus, 0 ≤ x ∧ x ≤ maxInt) ∧
      (∀ x, x ∈ cpus ↔ ∃ t ∈ tokens s, x ∈ tokenCPUs t) := by
  unfold ParseCPUList at h
  simp only [] at h
  by_cases h1 : TrimSpace s = []
  · rw [if_pos h1] at h
    simp only [Outcome.ok.injEq] at h
    subst h
    refine ⟨List.sorted_nil, by simp, ?_⟩
    intro x
    rw [tokens, h1]
    simp [Split, tokenCPUs_nil, TrimSpace_nil]
  · rw [if_neg h1] at h
    cases hp : parseParts (Split ',' (TrimSpace s)) [] with
    | error e => rw [hp] at h; simp at h
    | diverges => rw [hp] at h; simp at h
    | ok seen =>
      rw [hp] at h
      simp only [Outcome.ok.injEq] at h
      subst h
      obtain ⟨hn, hm⟩ := parseParts_ok _ _ _ hp List.nodup_nil
      have hmem : ∀ x, x ∈ sortInts seen ↔ ∃ t ∈ tokens s, x ∈ tokenCPUs t := by
        intro x
        rw [mem_sortInts, hm x]
        simp [tokens]
      refine ⟨sortInts_strict _ hn, ?_, hmem⟩
      intro x hx
      obtain ⟨t, _, hxt⟩ := (hmem x).1 hx
      exact tokenCPUs_bounds t x hxt

/-- Canonical text is a fixed point of canonicalization whenever no run of two or more CPUs
ends at the largest `int`: for a text `s` that parses to `cpus`, canonicalizing
`FormatCPUList cpus` returns that text unchanged together with `cpus`. -/
theorem CanonicalizeCPUList_canonical (s : Text) (cpus : List Int)
    (h : ParseCPUList s = .ok cpus) (hd : runsDiverge (runsOf cpus) = false) :
    CanonicalizeCPUList (FormatCPUList cpus) = .ok (FormatCPUList cpus, cpus) := by
  obtain ⟨hs, hb, _⟩ := ParseCPUList_ok s cpus h
  have e := sortedKeys_of_strict cpus hs
  have hp := ParseCPUList_FormatCPUList cpus hb
  rw [e, hd] at hp
  unfold CanonicalizeCPUList
  rw [hp]
  rfl

/-- C1 (evaluation at the failing input): the text `9223372036854775806,9223372036854775807`
parses to the two largest values of `int`, its canonical text is the range
`9223372036854775806-9223372036854775807`, and canonicalizing that canonical text does not
return, because the range loop of `ParseCPUList` wraps around at the largest `int`. -/
theorem C1_canonical_text_reparse_diverges :
    ParseCPUList "9223372036854775806,9223372036854775807".toList
        = .ok [9223372036854775806, 9223372036854775807] ∧
      FormatCPUList [9223372036854775806, 9223372036854775807]
        = "9223372036854775806-9223372036854775807".toList ∧
      CanonicalizeCPUList "9223372036854775806-9223372036854775807".toList = .diverges := by
  decide

/-- C2: for every list of Go integers, `FormatCPUList` depends only on the set of the elements
and is the reference canonical form: the maximal runs of consecutive integers of that set in
ascending order (which exist and are unique), each rendered as the bare number or as `lo-hi`,
joined by commas; the empty list gives the empty text; and the test vector `0-2,4, 6-7,7`
parses to `[0,1,2,4,6,7]`, which formats to `0-2,4,6-7`. -/
theorem C2_FormatCPUList_reference :
    (∀ cpus : List Int, InRange cpus → ∀ rs, IsMaximalRuns rs cpus →
      FormatCPUList cpus = joinComma (rs.map renderRun)) ∧
    (∀ cpus : List Int, ∃ rs, IsMaximalRuns rs cpus) ∧
    (∀ cpus other : List Int, InRange cpus → InRange other →
      (∀ x, x ∈ cpus ↔ x ∈ other) → FormatCPUList cpus = FormatCPUList other) ∧
    FormatCPUList [] = [] ∧
    ParseCPUList "0-2,4, 6-7,7".toList = .ok [0, 1, 2, 4, 6, 7] ∧
    FormatCPUList [0, 1, 2, 4, 6, 7] = "0-2,4,6-7".toList := by
  refine ⟨?_, ?_, ?_, rfl, by decide, by decide⟩
  · intro cpus h rs hrs
    rw [FormatCPUList_eq cpus h, IsMaximalRuns_unique rs cpus hrs]
    rfl
  · intro cpus
    obtain ⟨⟨a, b, c⟩, _⟩ := runsOf_spec (sortedKeys cpus) (sortedKeys_strict cpus)
    refine ⟨runsOf (sortedKeys cpus), a, b, fun x => ?_⟩
    rw [← c x, mem_sortedKeys]
  · intro cpus other h1 h2 hx
    rw [FormatCPUList_eq cpus h1, FormatCPUList_eq other h2, sortedKeys_congr cpus other hx]

/-- C2 at a concrete list, unordered and with a duplicate: its maximal runs are `0-2`, `4`
and `6-7`. -/
theorem C2_FormatCPUList_reference_witness :
    InRange [7, 6, 7, 0, 2, 1, 4] ∧ IsMaximalRuns [(0, 2), (4, 4), (6, 7)] [7, 6, 7, 0, 2, 1, 4] ∧
      FormatCPUList [7, 6, 7, 0, 2, 1, 4] = joinComma ([(0, 2), (4, 4), (6, 7)].map renderRun) :=
  have h : InRange [7, 6, 7, 0, 2, 1, 4] := by
    intro c hc
    simp only [List.mem_cons, List.mem_singleton, List.not_mem_nil, or_false] at hc
    unfold minInt maxInt
    omega
  have hr : IsMaximalRuns [(0, 2), (4, 4), (6, 7)] [7, 6, 7, 0, 2, 1, 4] := by
    refine ⟨by decide,
      List.chain'_cons.2 ⟨by decide, List.chain'_cons.2 ⟨by decide, List.chain'_singleton _⟩⟩, ?_⟩
    intro x
    simp only [List.mem_cons, List.mem_singleton, List.not_mem_nil, or_false, exists_eq_or_imp,
      exists_eq_left]
    omega
  ⟨h, hr, C2_FormatCPUList_reference.1 _ h _ hr⟩

theorem ContainsCPU_iff (cpus : List Int) (cpu : Int) : ContainsCPU cpus cpu = true ↔ cpu ∈ cpus := by
  induction cpus with
  | nil => simp [ContainsCPU]
  | cons c cs ih =>
    unfold ContainsCPU
    by_cases h : c = cpu
    · simp [h]
    · rw [if_neg h, ih]
      simp [Ne.symm h]

theorem CanonicalizeCPUList_ok_iff (s c : Text) (cpus : List Int) :
    CanonicalizeCPUList s = .ok (c, cpus) ↔ ParseCPUList s = .ok cpus ∧ c = FormatCPUList cpus := by
  unfold CanonicalizeCPUList
  cases h : ParseCPUList s with
  | ok v =>
    simp only [Outcome.ok.injEq, Prod.mk.injEq]
    constructor
    · rintro ⟨rfl, rfl⟩; exact ⟨rfl, rfl⟩
    · rintro ⟨rfl, rfl⟩; exact ⟨rfl, rfl⟩
  | error e => simp
  | diverges => simp

theorem CanonicalizeCPUList_diverges_iff (s : Text) :
    CanonicalizeCPUList s = .diverges ↔ ParseCPUList s = .diverges := by
  unfold CanonicalizeCPUList
  cases h : ParseCPUList s <;> simp

theorem FormatCPUList_no_space (l : List Int) (h : ∀ c ∈ l, 0 ≤ c ∧ c ≤ maxInt) :
    ∀ ch ∈ FormatCPUList l, isSpace ch = false := by
  have hin : InRange l := fun c hc => ⟨by have := (h c hc).1; unfold minInt; omega, (h c hc).2⟩
  rw [FormatCPUList_eq l hin]
  obtain ⟨⟨hle, _, _⟩, hmem⟩ := runsOf_spec (sortedKeys l) (sortedKeys_strict l)
  intro c hc
  rcases mem_joinComma _ c hc with rfl | ⟨x, hx, hcx⟩
  · decide
  · obtain ⟨r, hr, rfl⟩ := List.mem_map.1 hx
    obtain ⟨a, b⟩ := hmem r hr
    rw [mem_sortedKeys] at a b
    exact renderRun_no_space r (h _ a).1 (h _ b).1 c hcx

/-- Re-parsing a canonical text either gives the list back or does not return; it never gives
an error or another list. -/
theorem reparse_canonical (s : Text) (cpus : List Int) (h : ParseCPUList s = .ok cpus) :
    ParseCPUList (FormatCPUList cpus) = .diverges ∨
      ParseCPUList (FormatCPUList cpus) = .ok cpus := by
  obtain ⟨hs, hb, _⟩ := ParseCPUList_ok s cpus h
  have hp := ParseCPUList_FormatCPUList cpus hb
  rw [sortedKeys_of_strict cpus hs] at hp
  by_cases hd : runsDiverge (runsOf cpus) = true
  · left; rw [hp, if_pos hd]
  · right; rw [hp, if_neg hd]

theorem collectCanonical_spec (lists : List Text) :
    ∀ (uniq out : List Text), collectCanonical lists uniq = some out → uniq.Nodup →
      out.Nodup ∧ ∀ c, c ∈ out ↔
        c ∈ uniq ∨ (c ≠ [] ∧ ∃ s ∈ lists, ∃ cpus, CanonicalizeCPUList s = .ok (c, cpus)) := by
  induction lists with
  | nil =>
    intro uniq out h hn
    simp only [collectCanonical, Option.some.injEq] at h
    subst h
    exact ⟨hn, by simp⟩
  | cons s rest ih =>
    intro uniq out h hn
    unfold collectCanonical at h
    cases hc : CanonicalizeCPUList s with
    | diverges => rw [hc] at h; simp at h
    | error e =>
      rw [hc] at h
      simp only [] at h
      obtain ⟨a, b⟩ := ih _ _ h hn
      refine ⟨a, fun c => ?_⟩
      rw [b c]
      simp [hc]
    | ok v =>
      obtain ⟨canonical, cpus⟩ := v
      rw [hc] at h
      simp only [] at h
      by_cases he : canonical = []
      · rw [if_pos he] at h
        obtain ⟨a, b⟩ := ih _ _ h hn
        refine ⟨a, fun c => ?_⟩
        rw [b c]
        simp only [List.mem_cons, exists_eq_or_imp, hc, Outcome.ok.injEq, Prod.mk.injEq]
        constructor
        · rintro (h1 | ⟨h1, h2⟩)
          · exact Or.inl h1
          · exact Or.inr ⟨h1, Or.inr h2⟩
        · rintro (h1 | ⟨h1, ⟨_, h2, _⟩ | h2⟩)
          · exact Or.inl h1
          · exact absurd (h2.symm.trans he) h1
          · exact Or.inr ⟨h1, h2⟩
      · rw [if_neg he] at h
        obtain ⟨a, b⟩ := ih _ _ h (nodup_insertKey _ _ hn)
        refine ⟨a, fun c => ?_⟩
        rw [b c, mem_insertKey]
        simp only [List.mem_cons, exists_eq_or_imp, hc, Outcome.ok.injEq, Prod.mk.injEq]
        constructor
        · rintro ((h1 | h1) | ⟨h1, h2⟩)
          · exact Or.inl h1
          · exact Or.inr ⟨h1 ▸ he, Or.inl ⟨cpus, h1.symm, rfl⟩⟩
          · exact Or.inr ⟨h1, Or.inr h2⟩
        · rintro (h1 | ⟨h1, ⟨_, h2, _⟩ | h2⟩)
          · exact Or.inl (Or.inl h1)
          · exact Or.inl (Or.inr h2.symm)
          · exact Or.inr ⟨h1, h2⟩

theorem collectOther_of_lt (l : List Text) :
    ∀ (i osIdx : Nat) (other : List Int), osIdx < i →
      collectOther l i osIdx other = gatherOther l other := by
  induction l with
  | nil => intro i osIdx other _; rfl
  | cons s rest ih =>
    intro i osIdx other h
    unfold collectOther gatherOther
    rw [if_neg (by omega)]
    cases hc : CanonicalizeCPUList s with
    | diverges => rfl
    | error e => exact ih _ _ _ (by omega)
    | ok v =>
      simp only []
      split
      · exact ih _ _ _ (by omega)
      · exact ih _ _ _ (by omega)

theorem collectOther_split (pre : List Text) (c : Text) (post : List Text) :
    ∀ (i : Nat) (other : List Int),
      collectOther (pre ++ c :: post) i (i + pre.length) other =
        (gatherOther pre other).bind (fun a => gatherOther post a) := by
  induction pre with
  | nil =>
    intro i other
    simp only [List.nil_append, List.length_nil, Nat.add_zero, gatherOther, Option.some_bind]
    unfold collectOther
    rw [if_pos rfl]
    exact collectOther_of_lt _ _ _ _ (by omega)
  | cons p pre ih =>
    intro i other
    have e : i + (p :: pre).length = (i + 1) + pre.length := by simp; omega
    rw [e]
    simp only [List.cons_append]
    rw [collectOther, gatherOther, if_neg (by omega)]
    cases hc : CanonicalizeCPUList p with
    | diverges => rfl
    | error e => exact ih _ _
    | ok v =>
      simp only []
      split
      · exact ih _ _
      · exact ih _ _

theorem gatherOther_spec (l : List Text) :
    ∀ (other out : List Int), gatherOther l other = some out →
      (∀ x, x ∈ out ↔ x ∈ other ∨
        ∃ c ∈ l, ∃ t S, CanonicalizeCPUList c = .ok (t, S) ∧ (0 : Int) ∉ S ∧ x ∈ S) ∧
      (∀ c ∈ l, CanonicalizeCPUList c ≠ .diverges) := by
  induction l with
  | nil =>
    intro other out h
    simp only [gatherOther, Option.some.injEq] at h
    subst h
    simp
  | cons s rest ih =>
    intro other out h
    unfold gatherOther at h
    cases hc : CanonicalizeCPUList s with
    | diverges => rw [hc] at h; simp at h
    | error e =>
      rw [hc] at h
      simp only [] at h
      obtain ⟨a, b⟩ := ih _ _ h
      refine ⟨fun x => ?_, ?_⟩
      · rw [a x]; simp [hc]
      · intro c hcm
        rcases List.mem_cons.1 hcm with rfl | hcm
        · rw [hc]; simp
        · exact b c hcm
    | ok v =>
      obtain ⟨t, S⟩ := v
      rw [hc] at h
      simp only [] at h
      by_cases h0 : ContainsCPU S 0 = true
      · rw [if_pos h0] at h
        obtain ⟨a, b⟩ := ih _ _ h
        have h0m : (0 : Int) ∈ S := (ContainsCPU_iff _ _).1 h0
        refine ⟨fun x => ?_, ?_⟩
        · rw [a x]
          simp only [List.mem_cons, exists_eq_or_imp, hc, Outcome.ok.injEq, Prod.mk.injEq]
          constructor
          · rintro (h1 | h1)
            · exact Or.inl h1
            · exact Or.inr (Or.inr h1)
          · rintro (h1 | ⟨t1, S1, ⟨_, rfl⟩, h2, _⟩ | h1)
            · exact Or.inl h1
            · exact absurd h0m h2
            · exact Or.inr h1
        · intro c hcm
          rcases List.mem_cons.1 hcm with rfl | hcm
          · rw [hc]; simp
          · exact b c hcm
      · rw [if_neg h0] at h
        obtain ⟨a, b⟩ := ih _ _ h
        have h0m : (0 : Int) ∉ S := fun hm => h0 ((ContainsCPU_iff _ _).2 hm)
        refine ⟨fun x => ?_, ?_⟩
        · rw [a x]
          simp only [List.mem_cons, exists_eq_or_imp, hc, Outcome.ok.injEq, Prod.mk.injEq,
            List.mem_append]
          constructor
          · rintro ((h1 | h1) | h1)
            · exact Or.inl h1
            · exact Or.inr (Or.inl ⟨t, S, ⟨rfl, rfl⟩, h0m, h1⟩)
            · exact Or.inr (Or.inr h1)
          · rintro (h1 | ⟨t1, S1, ⟨_, rfl⟩, _, h3⟩ | h1)
            · exact Or.inl (Or.inl h1)
            · exact Or.inl (Or.inr h3)
            · exact Or.inr h1
        · intro c hcm
          rcases List.mem_cons.1 hcm with rfl | hcm
          · rw [hc]; simp
          · exact b c hcm

theorem findOSIdx_spec (l : List Text) :
    ∀ (i k : Nat), findOSIdx l i = some (some k) →
      ∃ pre c post t S, l = pre ++ c :: post ∧ k = i + pre.length ∧
        CanonicalizeCPUList c = .ok (t, S) ∧ (0 : Int) ∈ S ∧
        ∀ p ∈ pre, CanonicalizeCPUList p ≠ .diverges ∧
          ∀ t1 S1, CanonicalizeCPUList p = .ok (t1, S1) → (0 : Int) ∉ S1 := by
  induction l with
  | nil => intro i k h; simp [findOSIdx] at h
  | cons s rest ih =>
    intro i k h
    unfold findOSIdx at h
    cases hc : CanonicalizeCPUList s with
    | diverges => rw [hc] at h; simp at h
    | error e =>
      rw [hc] at h
      simp only [] at h
      obtain ⟨pre, c, post, t, S, h1, h2, h3, h4, h5⟩ := ih _ _ h
      refine ⟨s :: pre, c, post, t, S, by simp [h1], by simp; omega, h3, h4, ?_⟩
      intro p hp
      rcases List.mem_cons.1 hp with rfl | hp
      · rw [hc]; simp
      · exact h5 p hp
    | ok v =>
      obtain ⟨t, S⟩ := v
      rw [hc] at h
      simp only [] at h
      by_cases h0 : ContainsCPU S 0 = true
      · rw [if_pos h0] at h
        simp only [Option.some.injEq] at h
        exact ⟨[], s, rest, t, S, rfl, by simp [h], hc, (ContainsCPU_iff _ _).1 h0, by simp⟩
      · rw [if_neg h0] at h
        obtain ⟨pre, c, post, t1, S1, h1, h2, h3, h4, h5⟩ := ih _ _ h
        refine ⟨s :: pre, c, post, t1, S1, by simp [h1], by simp; omega, h3, h4, ?_⟩
        intro p hp
        rcases List.mem_cons.1 hp with rfl | hp
        · rw [hc]
          refine ⟨by simp, ?_⟩
          intro t2 S2 he
          simp only [Outcome.ok.injEq, Prod.mk.injEq] at he
          rw [← he.2]
          exact fun hm => h0 ((ContainsCPU_iff _ _).2 hm)
        · exact h5 p hp

theorem sortStrings_perm (l : List Text) : (sortStrings l).Perm l :=
  List.perm_insertionSort _ l

theorem getD_append_cons (pre : List Text) (c : Text) (post : List Text) :
    (pre ++ c :: post).getD pre.length [] = c := by
  induction pre with
  | nil => rfl
  | cons p pre ih => simpa using ih

/-- What a successful call of `SelectOSAndGame` has computed: the canonical lists are the
sorted set `uniq` of the first loop, the OS text is the first list whose CPUs contain 0 and
the game text is the format of the CPUs gathered from the lists before and after it. -/
theorem SelectOSAndGame_ok (lists : List Text) (os game : Text) (cl : List Text)
    (h : SelectOSAndGame lists = .ok (os, game, cl)) :
    ∃ uniq pre c post t S other,
      collectCanonical lists [] = some uniq ∧ cl = sortStrings uniq ∧
      cl = pre ++ c :: post ∧ CanonicalizeCPUList c = .ok (t, S) ∧ (0 : Int) ∈ S ∧
      (∀ p ∈ pre, CanonicalizeCPUList p ≠ .diverges ∧
          ∀ t1 S1, CanonicalizeCPUList p = .ok (t1, S1) → (0 : Int) ∉ S1) ∧
      os = TrimSpace c ∧
      (gatherOther pre []).bind (fun a => gatherOther post a) = some other ∧
      game = TrimSpace (FormatCPUList other) := by
  unfold SelectOSAndGame at h
  cases hu : collectCanonical lists [] with
  | none => rw [hu] at h; simp at h
  | some uniq =>
    rw [hu] at h
    simp only [] at h
    by_cases hl : uniq.length = 0
    · rw [if_pos hl] at h; simp at h
    · rw [if_neg hl] at h
      cases hf : findOSIdx (sortStrings uniq) 0 with
      | none => rw [hf] at h; simp at h
      | some r =>
        cases r with
        | none => rw [hf] at h; simp at h
        | some osIdx =>
          rw [hf] at h
          simp only [] at h
          obtain ⟨pre, c, post, t, S, h1, h2, h3, h4, h5⟩ := findOSIdx_spec _ _ _ hf
          have h2a : osIdx = pre.length := by omega
          cases ho : collectOther (sortStrings uniq) 0 osIdx [] with
          | none => rw [ho] at h; simp at h
          | some other =>
            rw [ho] at h
            simp only [Outcome.ok.injEq, Prod.mk.injEq] at h
            obtain ⟨e1, e2, e3⟩ := h
            refine ⟨uniq, pre, c, post, t, S, other, rfl, e3.symm, e3 ▸ h1, h3, h4, h5, ?_, ?_,
              e2.symm⟩
            · rw [← e1, h1, h2a, getD_append_cons]
            · rw [h1, h2a] at ho
              have := collectOther_split pre c post 0 []
              rw [Nat.zero_add] at this
              rw [← this]
              exact ho

/-- Every canonical list of the first loop is the format of a parsed CPU list. -/
theorem collectCanonical_canonical (lists : List Text) (uniq : List Text)
    (h : collectCanonical lists [] = some uniq) (c : Text) (hc : c ∈ uniq) :
    c ≠ [] ∧ ∃ s ∈ lists, ∃ cpus, ParseCPUList s = .ok cpus ∧ c = FormatCPUList cpus := by
  obtain ⟨_, hm⟩ := collectCanonical_spec lists [] uniq h List.nodup_nil
  rcases (hm c).1 hc with h1 | ⟨h1, s, hs, cpus, h2⟩
  · simp at h1
  · exact ⟨h1, s, hs, cpus, (CanonicalizeCPUList_ok_iff _ _ _).1 h2⟩

theorem canonical_TrimSpace (s : Text) (cpus : List Int) (h : ParseCPUList s = .ok cpus) :
    TrimSpace (FormatCPUList cpus) = FormatCPUList cpus :=
  TrimSpace_of_no_space _ (FormatCPUList_no_space cpus (ParseCPUList_ok s cpus h).2.1)

/-! ## `SelectOSAndGame` when no call of the parser runs for ever -/

theorem strLe_total (a : Text) : ∀ b : Text, strLe a b = true ∨ strLe b a = true := by
  induction a with
  | nil => intro b; left; cases b <;> rfl
  | cons x xs ih =>
    intro b
    cases b with
    | nil => right; rfl
    | cons y ys =>
      simp only [strLe]
      by_cases h1 : x.toNat < y.toNat
      · left; simp [h1]
      · by_cases h2 : y.toNat < x.toNat
        · right; simp [h2]
        · simp only [h1, h2, if_false]
          exact ih ys

theorem strLe_trans (a : Text) :
    ∀ b c : Text, strLe a b = true → strLe b c = true → strLe a c = true := by
  induction a with
  | nil => intro b c _ _; cases c <;> rfl
  | cons x xs ih =>
    intro b c hab hbc
    cases b with
    | nil => simp [strLe] at hab
    | cons y ys =>
      cases c with
      | nil => simp [strLe] at hbc
      | cons z zs =>
        simp only [strLe] at hab hbc ⊢
        by_cases h1 : x.toNat < y.toNat
        · by_cases h2 : y.toNat < z.toNat
          · rw [if_pos (by omega)]
          · by_cases h3 : z.toNat < y.toNat
            · simp [h2, h3] at hbc
            · rw [if_pos (by omega)]
        · by_cases h1b : y.toNat < x.toNat
          · simp [h1, h1b] at hab
          · simp only [h1, h1b, if_false] at hab
            by_cases h2 : y.toNat < z.toNat
            · rw [if_pos (by omega)]
            · by_cases h3 : z.toNat < y.toNat
              · simp [h2, h3] at hbc
              · simp only [h2, h3, if_false] at hbc
                rw [if_neg (by omega), if_neg (by omega)]
                exact ih ys zs hab hbc

theorem sortStrings_sorted (l : List Text) :
    (sortStrings l).Sorted (fun a b => strLe a b = true) := by
  haveI : IsTotal Text (fun a b => strLe a b = true) := ⟨fun a b => strLe_total a b⟩
  haveI : IsTrans Text (fun a b => strLe a b = true) := ⟨fun a b c => strLe_trans a b c⟩
  exact List.sorted_insertionSort _ l

theorem formatLoop_ne_nil (rest : List Int) :
    ∀ (start prev : Int) (b : Text), formatLoop rest start prev b ≠ [] := by
  have hflush : ∀ (b : Text) (s e : Int), flush b s e ≠ [] := by
    intro b s e
    cases b with
    | nil => rw [flush_nil]; exact renderRun_ne_nil _
    | cons c cs => rw [flush_of_ne_nil _ (by simp)]; simp
  induction rest with
  | nil => intro start prev b; exact hflush b start prev
  | cons cpu rest ih =>
    intro start prev b
    unfold formatLoop
    split
    · exact ih _ _ _
    · exact ih _ _ _

theorem FormatCPUList_eq_nil_iff (l : List Int) : FormatCPUList l = [] ↔ l = [] := by
  constructor
  · intro h
    by_contra hne
    unfold FormatCPUList at h
    rw [if_neg (by simpa using hne)] at h
    cases hs : sortInts (l.foldl insertKey []) with
    | nil =>
      cases l with
      | nil => exact hne rfl
      | cons a rest =>
        have : a ∈ sortInts ((a :: rest).foldl insertKey []) := by
          rw [mem_sortInts, mem_foldl_insertKey]
          exact Or.inr (List.mem_cons_self _ _)
        rw [hs] at this
        simp at this
    | cons u0 rest =>
      rw [hs] at h
      exact formatLoop_ne_nil _ _ _ _ h
  · rintro rfl; rfl

/-- When every entry is unparsable or canonicalizes to the empty text (in particular for the
empty input), `SelectOSAndGame` fails with `no valid cpu lists`. -/
theorem SelectOSAndGame_noValidLists (lists : List Text)
    (h : ∀ s ∈ lists, (∃ e, CanonicalizeCPUList s = .error e) ∨
      ∃ cpus, CanonicalizeCPUList s = .ok ([], cpus)) :
    SelectOSAndGame lists = .error .noValidLists := by
  have hc : ∀ (l : List Text), (∀ s ∈ l, (∃ e, CanonicalizeCPUList s = .error e) ∨
      ∃ cpus, CanonicalizeCPUList s = .ok ([], cpus)) → collectCanonical l [] = some [] := by
    intro l
    induction l with
    | nil => intro _; rfl
    | cons s rest ih =>
      intro hl
      have ih1 := ih (fun q hq => hl q (List.mem_cons_of_mem _ hq))
      unfold collectCanonical
      rcases hl s (List.mem_cons_self _ _) with ⟨e, he⟩ | ⟨cpus, he⟩
      · rw [he]; exact ih1
      · rw [he]; simp only [if_true]; exact ih1
  unfold SelectOSAndGame
  rw [hc lists h]
  rfl

theorem collectCanonical_some (lists : List Text) :
    ∀ (uniq : List Text), (∀ s ∈ lists, CanonicalizeCPUList s ≠ .diverges) →
      ∃ out, collectCanonical lists uniq = some out := by
  induction lists with
  | nil => intro uniq _; exact ⟨uniq, rfl⟩
  | cons s rest ih =>
    intro uniq h
    have ih1 := fun u => ih u (fun q hq => h q (List.mem_cons_of_mem _ hq))
    unfold collectCanonical
    cases hc : CanonicalizeCPUList s with
    | diverges => exact absurd hc (h s (List.mem_cons_self _ _))
    | error e => exact ih1 _
    | ok v =>
      simp only []
      split
      · exact ih1 _
      · exact ih1 _

theorem gatherOther_some (l : List Text) :
    ∀ (other : List Int), (∀ c ∈ l, CanonicalizeCPUList c ≠ .diverges) →
      ∃ out, gatherOther l other = some out := by
  induction l with
  | nil => intro other _; exact ⟨other, rfl⟩
  | cons s rest ih =>
    intro other h
    have ih1 := fun u => ih u (fun q hq => h q (List.mem_cons_of_mem _ hq))
    unfold gatherOther
    cases hc : CanonicalizeCPUList s with
    | diverges => exact absurd hc (h s (List.mem_cons_self _ _))
    | error e => exact ih1 _
    | ok v =>
      simp only []
      split
      · exact ih1 _
      · exact ih1 _

theorem findOSIdx_total (l : List Text) :
    ∀ (i : Nat), (∀ c ∈ l, CanonicalizeCPUList c ≠ .diverges) →
      (findOSIdx l i = some none ∧
        ∀ c ∈ l, ∀ t S, CanonicalizeCPUList c = .ok (t, S) → (0 : Int) ∉ S) ∨
      ∃ k, findOSIdx l i = some (some k) := by
  induction l with
  | nil => intro i _; left; exact ⟨rfl, by simp⟩
  | cons s rest ih =>
    intro i h
    have ih1 := ih (i + 1) (fun q hq => h q (List.mem_cons_of_mem _ hq))
    unfold findOSIdx
    cases hc : CanonicalizeCPUList s with
    | diverges => exact absurd hc (h s (List.mem_cons_self _ _))
    | error e =>
      simp only []
      rcases ih1 with ⟨a, b⟩ | ⟨k, hk⟩
      · left
        refine ⟨a, ?_⟩
        intro c hcm t S hcs
        rcases List.mem_cons.1 hcm with rfl | hcm
        · rw [hc] at hcs; simp at hcs
        · exact b c hcm t S hcs
      · exact Or.inr ⟨k, hk⟩
    | ok v =>
      obtain ⟨t0, S0⟩ := v
      simp only []
      by_cases h0 : ContainsCPU S0 0 = true
      · right; rw [if_pos h0]; exact ⟨i, rfl⟩
      · rw [if_neg h0]
        rcases ih1 with ⟨a, b⟩ | ⟨k, hk⟩
        · left
          refine ⟨a, ?_⟩
          intro c hcm t S hcs
          rcases List.mem_cons.1 hcm with rfl | hcm
          · rw [hc] at hcs
            simp only [Outcome.ok.injEq, Prod.mk.injEq] at hcs
            rw [← hcs.2]
            exact fun hm => h0 ((ContainsCPU_iff _ _).2 hm)
          · exact b c hcm t S hcs
        · exact Or.inr ⟨k, hk⟩

/-- Under `NoDivergence` the first loop returns, and re-canonicalizing any of its canonical
texts returns the text and the list it came from. -/
theorem collectCanonical_of_noDivergence (lists : List Text) (h : NoDivergence lists) :
    ∃ uniq, collectCanonical lists [] = some uniq ∧
      ∀ c ∈ uniq, ∃ s ∈ lists, ∃ cpus, ParseCPUList s = .ok cpus ∧ c = FormatCPUList cpus ∧
        CanonicalizeCPUList c = .ok (c, cpus) := by
  obtain ⟨uniq, hu⟩ := collectCanonical_some lists [] (fun s hs hd =>
    (h s hs).1 ((CanonicalizeCPUList_diverges_iff s).1 hd))
  refine ⟨uniq, hu, ?_⟩
  intro c hc
  obtain ⟨_, s, hs, cpus, hp, hcf⟩ := collectCanonical_canonical lists uniq hu c hc
  refine ⟨s, hs, cpus, hp, hcf, ?_⟩
  rcases reparse_canonical s cpus hp with hr | hr
  · exact absurd hr ((h s hs).2 cpus hp)
  · rw [hcf]
    exact (CanonicalizeCPUList_ok_iff _ _ _).2 ⟨hr, rfl⟩

/-- What a successful call of `SelectOSAndGame` returns: the canonical lists are sorted and
duplicate-free and are exactly the non-empty canonical texts of the entries that parse; the OS
text is, verbatim, the first of them whose CPU list contains 0; and the game text is the
format of the CPUs of the other canonical lists that do not contain CPU 0. -/
theorem SelectOSAndGame_ok_spec (lists : List Text) (os game : Text) (cl : List Text)
    (h : SelectOSAndGame lists = .ok (os, game, cl)) :
    (cl.Sorted (fun a b => strLe a b = true) ∧ cl.Nodup) ∧
    (∀ c, c ∈ cl ↔ c ≠ [] ∧ ∃ s ∈ lists, ∃ cpus, CanonicalizeCPUList s = .ok (c, cpus)) ∧
    (∃ pre post S, cl = pre ++ os :: post ∧ ParseCPUList os = .ok S ∧ (0 : Int) ∈ S ∧
      ∀ p ∈ pre, ∀ S1, ParseCPUList p = .ok S1 → (0 : Int) ∉ S1) ∧
    (∃ other, game = FormatCPUList other ∧
      ∀ x, x ∈ other ↔ ∃ c ∈ cl, c ≠ os ∧ ∃ S, ParseCPUList c = .ok S ∧ (0 : Int) ∉ S ∧ x ∈ S) := by
  obtain ⟨uniq, pre, c, post, t, S, other, hu, hcl, hsplit, hc, h0, hpre, hos, hother, hgame⟩ :=
    SelectOSAndGame_ok lists os game cl h
  obtain ⟨hund, humem⟩ := collectCanonical_spec lists [] uniq hu List.nodup_nil
  have hperm : cl.Perm uniq := hcl ▸ sortStrings_perm uniq
  have hnd : cl.Nodup := hperm.nodup_iff.2 hund
  have hccl : c ∈ cl := by rw [hsplit]; simp
  obtain ⟨_, s, _, cpus, hs, hcf⟩ :=
    collectCanonical_canonical lists uniq hu c (hperm.mem_iff.1 hccl)
  have hosc : os = c := by rw [hos, hcf]; exact canonical_TrimSpace s cpus hs
  have hpc : ParseCPUList c = .ok S := ((CanonicalizeCPUList_ok_iff _ _ _).1 hc).1
  obtain ⟨mid, hmid, hpost⟩ : ∃ mid, gatherOther pre [] = some mid ∧
      gatherOther post mid = some other := by
    cases hm : gatherOther pre [] with
    | none => rw [hm] at hother; simp at hother
    | some mid => rw [hm] at hother; exact ⟨mid, rfl, hother⟩
  obtain ⟨hm1, _⟩ := gatherOther_spec pre [] mid hmid
  obtain ⟨hm2, _⟩ := gatherOther_spec post mid other hpost
  have hmem : ∀ x, x ∈ other ↔ ∃ q, (q ∈ pre ∨ q ∈ post) ∧
      ∃ S1, ParseCPUList q = .ok S1 ∧ (0 : Int) ∉ S1 ∧ x ∈ S1 := by
    intro x
    rw [hm2 x, hm1 x]
    simp only [List.not_mem_nil, false_or, CanonicalizeCPUList_ok_iff]
    constructor
    · rintro (⟨q, hq, t1, S1, ⟨h1, _⟩, h2, h3⟩ | ⟨q, hq, t1, S1, ⟨h1, _⟩, h2, h3⟩)
      · exact ⟨q, Or.inl hq, S1, h1, h2, h3⟩
      · exact ⟨q, Or.inr hq, S1, h1, h2, h3⟩
    · rintro ⟨q, hq | hq, S1, h1, h2, h3⟩
      · exact Or.inl ⟨q, hq, _, S1, ⟨h1, rfl⟩, h2, h3⟩
      · exact Or.inr ⟨q, hq, _, S1, ⟨h1, rfl⟩, h2, h3⟩
  have hob : ∀ x ∈ other, 0 ≤ x ∧ x ≤ maxInt := by
    intro x hx
    obtain ⟨q, _, S1, h1, _, h3⟩ := (hmem x).1 hx
    exact (ParseCPUList_ok q S1 h1).2.1 x h3
  have hgf : game = FormatCPUList other := by
    rw [hgame]; exact TrimSpace_of_no_space _ (FormatCPUList_no_space other hob)
  have hne : ∀ q, (q ∈ pre ∨ q ∈ post) ↔ q ∈ cl ∧ q ≠ c := by
    intro q
    rw [hsplit] at hnd ⊢
    have hnd2 := List.nodup_append.1 hnd
    have hnd3 := List.nodup_cons.1 hnd2.2.1
    constructor
    · rintro (hq | hq)
      · exact ⟨by simp [hq], fun e => hnd2.2.2 hq (e ▸ List.mem_cons_self _ _)⟩
      · exact ⟨by simp [hq], fun e => hnd3.1 (e ▸ hq)⟩
    · rintro ⟨hq, hqc⟩
      simp only [List.mem_append, List.mem_cons] at hq
      tauto
  refine ⟨⟨hcl ▸ sortStrings_sorted uniq, hnd⟩, ?_, ?_, ?_⟩
  · intro q
    rw [hperm.mem_iff, humem q]
    simp
  · refine ⟨pre, post, S, hosc ▸ hsplit, hosc ▸ hpc, h0, ?_⟩
    intro p hp S1 hp1
    exact (hpre p hp).2 _ S1 ((CanonicalizeCPUList_ok_iff _ _ _).2 ⟨hp1, rfl⟩)
  · refine ⟨other, hgf, ?_⟩
    intro x
    rw [hmem x, hosc]
    constructor
    · rintro ⟨q, hq, r⟩
      exact ⟨q, ((hne q).1 hq).1, ((hne q).1 hq).2, r⟩
    · rintro ⟨q, hq, hqc, r⟩
      exact ⟨q, (hne q).2 ⟨hq, hqc⟩, r⟩

/-- When no call of the parser runs for ever, `SelectOSAndGame` succeeds as soon as one entry
parses to a list containing CPU 0, and it fails with `no cpu list contains CPU0` when some
entry parses to a non-empty list and no entry parses to a list containing CPU 0. -/
theorem SelectOSAndGame_of_noDivergence (lists : List Text) (h : NoDivergence lists) :
    ((∃ s ∈ lists, ∃ cpus, ParseCPUList s = .ok cpus ∧ (0 : Int) ∈ cpus) →
      ∃ os game cl, SelectOSAndGame lists = .ok (os, game, cl)) ∧
    ((∃ s ∈ lists, ∃ cpus, ParseCPUList s = .ok cpus ∧ cpus ≠ []) →
      (∀ s ∈ lists, ∀ cpus, ParseCPUList s = .ok cpus → (0 : Int) ∉ cpus) →
      ∃ cl, SelectOSAndGame lists = .error (.noCPU0 cl)) := by
  obtain ⟨uniq, hu, hcanon⟩ := collectCanonical_of_noDivergence lists h
  obtain ⟨_, humem⟩ := collectCanonical_spec lists [] uniq hu List.nodup_nil
  have hperm : (sortStrings uniq).Perm uniq := sortStrings_perm uniq
  -- every entry that parses to a non-empty list has its canonical text among the lists
  have hin : ∀ s ∈ lists, ∀ cpus, ParseCPUList s = .ok cpus → cpus ≠ [] →
      FormatCPUList cpus ∈ uniq := by
    intro s hs cpus hp hne
    rw [humem]
    right
    exact ⟨fun e => hne ((FormatCPUList_eq_nil_iff cpus).1 e), s, hs, cpus,
      (CanonicalizeCPUList_ok_iff _ _ _).2 ⟨hp, rfl⟩⟩
  have hnd : ∀ c ∈ sortStrings uniq, CanonicalizeCPUList c ≠ .diverges := by
    intro c hc
    obtain ⟨_, _, _, _, _, hcc⟩ := hcanon c (hperm.mem_iff.1 hc)
    rw [hcc]; simp
  have hlen : ∀ c, c ∈ uniq → ¬ uniq.length = 0 := by
    intro c hc h0
    rw [List.length_eq_zero.1 h0] at hc
    simp at hc
  refine ⟨?_, ?_⟩
  · rintro ⟨s0, hs0, cpus0, hp0, h00⟩
    have hne0 : cpus0 ≠ [] := fun e => by rw [e] at h00; simp at h00
    have hc0 := hin s0 hs0 cpus0 hp0 hne0
    have hcan0 : CanonicalizeCPUList (FormatCPUList cpus0) = .ok (FormatCPUList cpus0, cpus0) := by
      rcases reparse_canonical s0 cpus0 hp0 with hr | hr
      · exact absurd hr ((h s0 hs0).2 cpus0 hp0)
      · exact (CanonicalizeCPUList_ok_iff _ _ _).2 ⟨hr, rfl⟩
    rcases findOSIdx_total (sortStrings uniq) 0 hnd with ⟨_, hnone⟩ | ⟨k, hk⟩
    · exact absurd h00 (hnone _ (hperm.mem_iff.2 hc0) _ _ hcan0)
    · obtain ⟨pre, c, post, t, S, h1, h2, _, _, _⟩ := findOSIdx_spec _ _ _ hk
      have hpre : ∀ p ∈ pre, CanonicalizeCPUList p ≠ .diverges :=
        fun p hp => hnd p (by rw [h1]; simp [hp])
      have hpost : ∀ p ∈ post, CanonicalizeCPUList p ≠ .diverges :=
        fun p hp => hnd p (by rw [h1]; simp [hp])
      obtain ⟨mid, hmid⟩ := gatherOther_some pre [] hpre
      obtain ⟨other, hoth⟩ := gatherOther_some post mid hpost
      have hco : collectOther (sortStrings uniq) 0 k [] = some other := by
        have := collectOther_split pre c post 0 []
        rw [Nat.zero_add] at this
        rw [h1, h2, Nat.zero_add, this, hmid]
        exact hoth
      refine ⟨TrimSpace ((sortStrings uniq).getD k []), TrimSpace (FormatCPUList other),
        sortStrings uniq, ?_⟩
      unfold SelectOSAndGame
      rw [hu]
      simp only [hlen _ hc0, if_false, hk, hco]
  · rintro ⟨s0, hs0, cpus0, hp0, hne0⟩ hno
    have hc0 := hin s0 hs0 cpus0 hp0 hne0
    rcases findOSIdx_total (sortStrings uniq) 0 hnd with ⟨hnone, _⟩ | ⟨k, hk⟩
    · refine ⟨sortStrings uniq, ?_⟩
      unfold SelectOSAndGame
      rw [hu]
      simp only [hlen _ hc0, if_false, hnone]
    · exfalso
      obtain ⟨pre, c, post, t, S, h1, _, h3, h4, _⟩ := findOSIdx_spec _ _ _ hk
      have hcu : c ∈ uniq := hperm.mem_iff.1 (by rw [h1]; simp)
      obtain ⟨s, hs, cpus, hp, _, hcc⟩ := hcanon c hcu
      rw [hcc] at h3
      simp only [Outcome.ok.injEq, Prod.mk.injEq] at h3
      exact hno s hs cpus hp (h3.2 ▸ h4)

/-- C4 (evaluation at the failing input): both entries of the input parse, the first one to a
list that contains CPU 0; the canonical text of the second entry is a range that ends at the
largest `int`, and when `SelectOSAndGame` canonicalizes that text again to collect the game
CPUs the call does not return.  On the test vector of the repository the call returns the OS
text `0-3`, the game text `4-7` and two canonical lists. -/
theorem C4_select_diverges_on_reparse :
    CanonicalizeCPUList "0".toList = .ok ("0".toList, [0]) ∧
      CanonicalizeCPUList "9223372036854775806,9223372036854775807".toList
        = .ok ("9223372036854775806-9223372036854775807".toList,
            [9223372036854775806, 9223372036854775807]) ∧
      SelectOSAndGame ["0".toList, "9223372036854775806,9223372036854775807".toList]
        = .diverges ∧
      SelectOSAndGame ["0-3".toList, "4-7".toList]
        = .ok ("0-3".toList, "4-7".toList, ["0-3".toList, "4-7".toList]) := by
  decide

/-- C5 (evaluation at the failing input): both entries of the input parse to non-empty lists
and neither list contains CPU 0, yet `SelectOSAndGame` does not fail with the error
`no cpu list contains CPU0`: it does not return, because the canonical text of the second
entry is a range that ends at the largest `int`. -/
theorem C5_no_cpu0_diverges_on_reparse :
    ParseCPUList "1".toList = .ok [1] ∧
      ParseCPUList "9223372036854775806,9223372036854775807".toList
        = .ok [9223372036854775806, 9223372036854775807] ∧
      SelectOSAndGame ["1".toList, "9223372036854775806,9223372036854775807".toList]
        = .diverges := by
  decide

/-- C6 as stated fails: for the lists `0-1` and `1-2` the call succeeds with OS text `0-1` and
game text `1-2`, and CPU 1 is in both sets. -/
theorem C6_overlap_counterexample :
    SelectOSAndGame ["0-1".toList, "1-2".toList]
        = .ok ("0-1".toList, "1-2".toList, ["0-1".toList, "1-2".toList]) ∧
      ParseCPUList "0-1".toList = .ok [0, 1] ∧ ParseCPUList "1-2".toList = .ok [1, 2] ∧
      (1 : Int) ∈ [0, 1] ∧ (1 : Int) ∈ [1, 2] := by
  decide

/-- C6 (amended): when `SelectOSAndGame` succeeds and the returned canonical lists denote
pairwise disjoint CPU sets, the OS text parses to a set `O`, the game text is the canonical
text of a set `G` (and `ParseCPUList`, whenever it returns on the game text, returns the
elements of `G`), `O` and `G` are disjoint, and together they contain exactly the CPUs that
occur in the canonical lists. -/
theorem C6_os_game_partition (lists : List Text) (os game : Text) (cl : List Text)
    (h : SelectOSAndGame lists = .ok (os, game, cl)) (hdisj : PairwiseDisjointLists cl) :
    ∃ O G : List Int, ParseCPUList os = .ok O ∧ game = FormatCPUList G ∧
      (∀ G1, ParseCPUList game = .ok G1 → ∀ x, x ∈ G1 ↔ x ∈ G) ∧
      (∀ x, x ∈ O → x ∉ G) ∧
      (∀ x, (x ∈ O ∨ x ∈ G) ↔ ∃ c ∈ cl, ∃ S, ParseCPUList c = .ok S ∧ x ∈ S) := by
  obtain ⟨⟨_, hnd⟩, _, ⟨pre, post, O, hsplit, hpO, h0, _⟩, ⟨G, hgame, hG⟩⟩ :=
    SelectOSAndGame_ok_spec lists os game cl h
  have hoscl : os ∈ cl := by rw [hsplit]; simp
  refine ⟨O, G, hpO, hgame, ?_, ?_, ?_⟩
  · intro G1 hG1 x
    have hob : ∀ y ∈ G, 0 ≤ y ∧ y ≤ maxInt := by
      intro y hy
      obtain ⟨c, _, _, S, hS, _, hyS⟩ := (hG y).1 hy
      exact (ParseCPUList_ok c S hS).2.1 y hyS
    have hp := ParseCPUList_FormatCPUList G hob
    rw [← hgame, hG1] at hp
    by_cases hd : runsDiverge (runsOf (sortedKeys G)) = true
    · rw [if_pos hd] at hp; simp at hp
    · rw [if_neg hd] at hp
      simp only [Outcome.ok.injEq] at hp
      rw [hp, mem_sortedKeys]
  · intro x hxO hxG
    obtain ⟨c, hc, hne, S, hS, _, hxS⟩ := (hG x).1 hxG
    exact hdisj os hoscl c hc (fun e => hne e.symm) O S hpO hS x hxO hxS
  · intro x
    constructor
    · rintro (hx | hx)
      · exact ⟨os, hoscl, O, hpO, hx⟩
      · obtain ⟨c, hc, _, S, hS, _, hxS⟩ := (hG x).1 hx
        exact ⟨c, hc, S, hS, hxS⟩
    · rintro ⟨c, hc, S, hS, hxS⟩
      by_cases hco : c = os
      · subst hco
        rw [hpO] at hS
        simp only [Outcome.ok.injEq] at hS
        exact Or.inl (hS ▸ hxS)
      · right
        rw [hG x]
        refine ⟨c, hc, hco, S, hS, ?_, hxS⟩
        intro h0S
        exact hdisj os hoscl c hc (fun e => hco e.symm) O S hpO hS 0 h0 h0S

/-- C6 (amended) at the test vector of the repository: the lists `0-3` and `4-7`. -/
theorem C6_os_game_partition_witness :
    ∃ O G : List Int, ParseCPUList "0-3".toList = .ok O ∧ "4-7".toList = FormatCPUList G ∧
      (∀ G1, ParseCPUList "4-7".toList = .ok G1 → ∀ x, x ∈ G1 ↔ x ∈ G) ∧
      (∀ x, x ∈ O → x ∉ G) ∧
      (∀ x, (x ∈ O ∨ x ∈ G) ↔
        ∃ c ∈ ["0-3".toList, "4-7".toList], ∃ S, ParseCPUList c = .ok S ∧ x ∈ S) :=
  C6_os_game_partition ["0-3".toList, "4-7".toList] "0-3".toList "4-7".toList
    ["0-3".toList, "4-7".toList] (by decide)
    (by
      intro c1 h1 c2 h2 hne S1 S2 p1 p2 x hx1 hx2
      simp only [List.mem_cons, List.mem_singleton, List.not_mem_nil, or_false] at h1 h2
      have e1 : ParseCPUList "0-3".toList = .ok [0, 1, 2, 3] := by decide
      have e2 : ParseCPUList "4-7".toList = .ok [4, 5, 6, 7] := by decide
      rcases h1 with rfl | rfl <;> rcases h2 with rfl | rfl
      · exact hne rfl
      · rw [e1] at p1; rw [e2] at p2
        simp only [Outcome.ok.injEq] at p1 p2
        subst p1; subst p2
        simp only [List.mem_cons, List.mem_singleton, List.not_mem_nil, or_false] at hx1 hx2
        omega
      · rw [e2] at p1; rw [e1] at p2
        simp only [Outcome.ok.injEq] at p1 p2
        subst p1; subst p2
        simp only [List.mem_cons, List.mem_singleton, List.not_mem_nil, or_false] at hx1 hx2
        omega
      · exact hne rfl)

/-! ## `UnitNameForGameID` -/

theorem isUnitChar_inUnitClass (c : Char) (h : isUnitChar c = true) : inUnitClass c = true := by
  unfold isUnitChar at h
  unfold inUnitClass
  simp only [Bool.or_eq_true, Bool.and_eq_true, decide_eq_true_eq, beq_iff_eq] at h ⊢
  simp only [Char.le_def, Char.toNat] at *
  rcases h with (((h | h) | h) | h) | h
  · exact Or.inl (Or.inl (Or.inl (Or.inr ⟨by simpa using h.1, by simpa using h.2⟩)))
  · exact Or.inl (Or.inl (Or.inl (Or.inl ⟨by simpa using h.1, by simpa using h.2⟩)))
  · exact Or.inl (Or.inl (Or.inr ⟨by simpa using h.1, by simpa using h.2⟩))
  · exact Or.inr h
  · exact Or.inl (Or.inr h)

theorem mem_trimDashUnderscore (s : Text) (c : Char) (h : c ∈ trimDashUnderscore s) : c ∈ s := by
  unfold trimDashUnderscore at h
  exact (List.dropWhile_suffix _).subset (mem_dropRightWhile _ _ _ h)

/-- C7: for every text `id`, `UnitNameForGameID id` matches
`^game-[A-Za-z0-9_-]{1,80}\.scope$`: it is `game-`, then between 1 and 80 characters of the
class `[A-Za-z0-9_-]`, then `.scope`; and the three test vectors give `game-12345.scope`,
`game-unknown.scope` and `game-weird_id___x.scope`. -/
theorem C7_UnitNameForGameID_pattern :
    (∀ id : Text, MatchesUnitPattern (UnitNameForGameID id)) ∧
      UnitNameForGameID "12345".toList = "game-12345.scope".toList ∧
      UnitNameForGameID "  ".toList = "game-unknown.scope".toList ∧
      UnitNameForGameID "weird id: (x)".toList = "game-weird_id___x.scope".toList := by
  refine ⟨?_, by decide, by decide, by decide⟩
  intro id
  have hunk : ∀ c ∈ "unknown".toList, inUnitClass c = true := by decide
  -- the text after the substitution and the trimming
  have key : ∀ g : Text, ∀ c ∈ (if trimDashUnderscore (g.map (fun r => if isUnitChar r then r else '_')) = []
      then "unknown".toList
      else trimDashUnderscore (g.map (fun r => if isUnitChar r then r else '_'))),
      inUnitClass c = true := by
    intro g c hc
    split at hc
    · exact hunk c hc
    · have := mem_trimDashUnderscore _ _ hc
      obtain ⟨r, _, hr⟩ := List.mem_map.1 this
      by_cases hu : isUnitChar r = true
      · rw [if_pos hu] at hr
        exact hr ▸ isUnitChar_inUnitClass r hu
      · rw [if_neg hu] at hr
        rw [← hr]; decide
  have hne : ∀ g : Text, (if trimDashUnderscore (g.map (fun r => if isUnitChar r then r else '_')) = []
      then "unknown".toList
      else trimDashUnderscore (g.map (fun r => if isUnitChar r then r else '_'))) ≠ [] := by
    intro g
    split
    · decide
    · assumption
  unfold UnitNameForGameID
  simp only []
  generalize (if TrimSpace id = [] then "unknown".toList else TrimSpace id) = g
  have k1 := key g
  have k2 := hne g
  generalize (if trimDashUnderscore (g.map (fun r => if isUnitChar r then r else '_')) = []
      then "unknown".toList
      else trimDashUnderscore (g.map (fun r => if isUnitChar r then r else '_'))) = t at k1 k2
  refine ⟨if t.length > 80 then t.take 80 else t, rfl, ?_, ?_, ?_⟩
  · have hl : 0 < t.length := List.length_pos.2 k2
    split
    · rw [List.length_take]; omega
    · omega
  · split
    · rw [List.length_take]; omega
    · omega
  · intro c hc
    split at hc
    · exact k1 c (List.mem_of_mem_take hc)
    · exact k1 c hc

/-! ## `gameIDFromEnviron` -/

theorem indexByte_spec (c : Char) (entry : Text) :
    (c ∉ entry → indexByte c entry = none) ∧
    (c ∈ entry → ∃ eq, indexByte c entry = some eq ∧ entry.take eq = (SplitN2 c entry).1 ∧
      entry.drop (eq + 1) = (SplitN2 c entry).2) := by
  induction entry with
  | nil => simp [indexByte]
  | cons x xs ih =>
    by_cases hx : x = c
    · subst hx
      simp [indexByte, SplitN2]
    · constructor
      · intro h
        have h2 : c ∉ xs := fun hm => h (List.mem_cons_of_mem _ hm)
        simp [indexByte, hx, ih.1 h2]
      · intro h
        have h2 : c ∈ xs := by
          rcases List.mem_cons.1 h with h | h
          · exact absurd h.symm hx
          · exact h
        obtain ⟨eq, h3, h4, h5⟩ := ih.2 h2
        refine ⟨eq + 1, ?_, ?_, ?_⟩
        · simp [indexByte, hx, h3]
        · simp [SplitN2, hx, h4]
        · simp [SplitN2, hx, h5]

/-- One step of the loop of `gameIDFromEnviron`, in terms of the candidate of the entry. -/
theorem envLoop_cons (s : Scanner) (entry : Text) (rest : List Text) (bestIdx : Nat)
    (bestKey bestVal : Text) :
    envLoop s (entry :: rest) bestIdx bestKey bestVal =
      match candidate s entry with
      | none => envLoop s rest bestIdx bestKey bestVal
      | some (idx, k, v) =>
        if idx ≥ bestIdx then envLoop s rest bestIdx bestKey bestVal
        else if idx = 0 then (v, k)
        else envLoop s rest idx k v := by
  rw [envLoop]
  by_cases h0 : entry.length = 0
  · have : entry = [] := List.length_eq_zero.1 h0
    subst this
    simp [candidate, entryKV]
  · rw [if_neg h0]
    by_cases hm : '=' ∈ entry
    · obtain ⟨eq, h1, h2, h3⟩ := (indexByte_spec '=' entry).2 hm
      rw [h1]
      simp only []
      rw [h2, h3]
      by_cases he : eq = 0
      · have hk : (SplitN2 '=' entry).1 = [] := by rw [← h2, he]; rfl
        simp [candidate, entryKV, hm, hk, he]
      · have hk : (SplitN2 '=' entry).1 ≠ [] := by
          rw [← h2]
          intro hnil
          rw [List.take_eq_nil_iff] at hnil
          rcases hnil with hnil | hnil
          · exact he hnil
          · subst hnil; simp at hm
        rw [if_neg he]
        simp only [candidate, entryKV, hm, if_true, hk, if_false]
        cases hl : mapLookup s.envKeyIndex (SplitN2 '=' entry).1 with
        | none => rfl
        | some idx =>
          simp only []
          by_cases hv : TrimSpace (SplitN2 '=' entry).2 = []
          · simp only [hv, if_true]
            split <;> rfl
          · simp only [hv, if_false]
    · rw [(indexByte_spec '=' entry).1 hm]
      simp [candidate, entryKV, hm]

/-- The result of the loop of `gameIDFromEnviron`: the running best when no entry has a
candidate of smaller index, otherwise the first candidate of the smallest index. -/
theorem envLoop_spec (s : Scanner) (entries : List Text) :
    ∀ (bestIdx : Nat) (bestKey bestVal : Text),
      ((∀ e ∈ entries, ∀ c, candidate s e = some c → bestIdx ≤ c.1) ∧
        envLoop s entries bestIdx bestKey bestVal = (bestVal, bestKey)) ∨
      (∃ E1 e E2 c, entries = E1 ++ e :: E2 ∧ candidate s e = some c ∧ c.1 < bestIdx ∧
        (∀ e1 ∈ E1, ∀ d, candidate s e1 = some d → c.1 < d.1) ∧
        (∀ e2 ∈ E2, ∀ d, candidate s e2 = some d → c.1 ≤ d.1) ∧
        envLoop s entries bestIdx bestKey bestVal = (c.2.2, c.2.1)) := by
  induction entries with
  | nil =>
    intro bi bk bv
    left
    simp [envLoop]
  | cons e rest ih =>
    intro bi bk bv
    rw [envLoop_cons]
    cases hc : candidate s e with
    | none =>
      simp only []
      rcases ih bi bk bv with ⟨h1, h2⟩ | ⟨E1, e0, E2, c, h1, h2, h3, h4, h5, h6⟩
      · left
        refine ⟨?_, h2⟩
        intro e1 he1 c1 hc1
        rcases List.mem_cons.1 he1 with rfl | he1
        · rw [hc] at hc1; simp at hc1
        · exact h1 e1 he1 c1 hc1
      · right
        refine ⟨e :: E1, e0, E2, c, by simp [h1], h2, h3, ?_, h5, h6⟩
        intro e1 he1 d hd
        rcases List.mem_cons.1 he1 with rfl | he1
        · rw [hc] at hd; simp at hd
        · exact h4 e1 he1 d hd
    | some c0 =>
      obtain ⟨idx, k, v⟩ := c0
      simp only []
      by_cases hge : idx ≥ bi
      · rw [if_pos hge]
        rcases ih bi bk bv with ⟨h1, h2⟩ | ⟨E1, e0, E2, c, h1, h2, h3, h4, h5, h6⟩
        · left
          refine ⟨?_, h2⟩
          intro e1 he1 c1 hc1
          rcases List.mem_cons.1 he1 with rfl | he1
          · rw [hc] at hc1
            simp only [Option.some.injEq] at hc1
            rw [← hc1]; exact hge
          · exact h1 e1 he1 c1 hc1
        · right
          refine ⟨e :: E1, e0, E2, c, by simp [h1], h2, h3, ?_, h5, h6⟩
          intro e1 he1 d hd
          rcases List.mem_cons.1 he1 with rfl | he1
          · rw [hc] at hd
            simp only [Option.some.injEq] at hd
            rw [← hd]
            show c.1 < idx
            omega
          · exact h4 e1 he1 d hd
      · rw [if_neg hge]
        by_cases h0 : idx = 0
        · rw [if_pos h0]
          right
          refine ⟨[], e, rest, (idx, k, v), rfl, hc, by simp only []; omega, by simp, ?_, rfl⟩
          intro e2 _ d _
          simp only []
          omega
        · rw [if_neg h0]
          rcases ih idx k v with ⟨h1, h2⟩ | ⟨E1, e0, E2, c, h1, h2, h3, h4, h5, h6⟩
          · right
            exact ⟨[], e, rest, (idx, k, v), rfl, hc, by simp only []; omega, by simp, h1, h2⟩
          · right
            refine ⟨e :: E1, e0, E2, c, by simp [h1], h2, by omega, ?_, h5, h6⟩
            intro e1 he1 d hd
            rcases List.mem_cons.1 he1 with rfl | he1
            · rw [hc] at hd
              simp only [Option.some.injEq] at hd
              rw [← hd]
              exact h3
            · exact h4 e1 he1 d hd

theorem mapLookup_append (idx : List (Text × Nat)) (k : Text) (n : Nat) (q : Text) :
    mapLookup (idx ++ [(k, n)]) q =
      match mapLookup idx q with
      | some v => some v
      | none => if k = q then some n else none := by
  induction idx with
  | nil => simp [mapLookup]
  | cons p rest ih =>
    obtain ⟨k1, v1⟩ := p
    simp only [List.cons_append, mapLookup]
    by_cases h : k1 = q
    · simp [h]
    · simp only [h, if_false]
      exact ih

theorem priorityIndex_append_of_mem (keys more : List Text) (k : Text) (h : k ∈ keys) :
    priorityIndex (keys ++ more) k = priorityIndex keys k := by
  induction keys with
  | nil => simp at h
  | cons a rest ih =>
    rw [List.cons_append, priorityIndex, priorityIndex]
    by_cases ha : a = k
    · simp [ha]
    · rw [if_neg ha, if_neg ha, ih]
      rcases List.mem_cons.1 h with h | h
      · exact absurd h.symm ha
      · exact h

theorem priorityIndex_append_of_not_mem (keys more : List Text) (k : Text) (h : k ∉ keys) :
    priorityIndex (keys ++ more) k = keys.length + priorityIndex more k := by
  induction keys with
  | nil => simp
  | cons a rest ih =>
    have ha : a ≠ k := fun e => h (e ▸ List.mem_cons_self _ _)
    rw [List.cons_append, priorityIndex, if_neg ha, List.length_cons,
      ih (fun hm => h (List.mem_cons_of_mem _ hm))]
    omega

theorem priorityIndex_lt_length (keys : List Text) (k : Text) (h : k ∈ keys) :
    priorityIndex keys k < keys.length := by
  induction keys with
  | nil => simp at h
  | cons a rest ih =>
    simp only [priorityIndex, List.length_cons]
    by_cases ha : a = k
    · rw [if_pos ha]; omega
    · rw [if_neg ha]
      have : k ∈ rest := by
        rcases List.mem_cons.1 h with h | h
        · exact absurd h.symm ha
        · exact h
      have := ih this
      omega

theorem priorityIndex_inj (keys : List Text) (k q : Text) (hk : k ∈ keys) (hq : q ∈ keys)
    (h : priorityIndex keys k = priorityIndex keys q) : k = q := by
  induction keys with
  | nil => simp at hk
  | cons a rest ih =>
    simp only [priorityIndex] at h
    by_cases ha : a = k
    · by_cases hb : a = q
      · exact ha.symm.trans hb
      · rw [if_pos ha, if_neg hb] at h; omega
    · by_cases hb : a = q
      · rw [if_neg ha, if_pos hb] at h; omega
      · rw [if_neg ha, if_neg hb] at h
        have hk2 : k ∈ rest := by
          rcases List.mem_cons.1 hk with h1 | h1
          · exact absurd h1.symm ha
          · exact h1
        have hq2 : q ∈ rest := by
          rcases List.mem_cons.1 hq with h1 | h1
          · exact absurd h1.symm hb
          · exact h1
        exact ih hk2 hq2 (by omega)

theorem newScannerLoop_ok (envKeys : List Text) :
    ∀ (keys : List Text) (idx : List (Text × Nat)), KeyIndexOK keys idx →
      KeyIndexOK (newScannerLoop envKeys keys idx).1 (newScannerLoop envKeys keys idx).2 := by
  induction envKeys with
  | nil => intro keys idx h; exact h
  | cons k rest ih =>
    intro keys idx h
    unfold newScannerLoop
    simp only []
    by_cases h1 : TrimSpace k = []
    · rw [if_pos h1]; exact ih _ _ h
    · rw [if_neg h1]
      obtain ⟨hn, hne, hl⟩ := h
      by_cases h2 : (mapLookup idx (TrimSpace k)).isSome = true
      · rw [if_pos h2]; exact ih _ _ ⟨hn, hne, hl⟩
      · rw [if_neg h2]
        have hnot : TrimSpace k ∉ keys := by
          intro hm
          rw [hl, if_pos hm] at h2
          simp at h2
        apply ih
        refine ⟨?_, ?_, ?_⟩
        · rw [List.nodup_append]
          refine ⟨hn, List.nodup_singleton _, ?_⟩
          intro a ha hb
          rw [List.mem_singleton] at hb
          exact hnot (hb ▸ ha)
        · intro q hq
          rcases List.mem_append.1 hq with hq | hq
          · exact hne q hq
          · rw [List.mem_singleton] at hq
            exact hq ▸ h1
        · intro q
          rw [mapLookup_append, hl q]
          by_cases hq : q ∈ keys
          · simp [hq, priorityIndex_append_of_mem _ _ _ hq]
          · simp only [hq, if_false]
            by_cases hqk : TrimSpace k = q
            · subst hqk
              simp [priorityIndex_append_of_not_mem _ _ _ hnot, priorityIndex]
            · have : q ∉ keys ++ [TrimSpace k] := by
                simp [hq, Ne.symm hqk]
              simp [hqk, this]

theorem NewScanner_ok (lower : Text → Text) (uid : Int) (envKeys allow ignore : List Text) :
    KeyIndexOK (NewScanner lower uid envKeys allow ignore).envKeyOrder
      (NewScanner lower uid envKeys allow ignore).envKeyIndex := by
  unfold NewScanner
  simp only []
  apply newScannerLoop_ok
  refine ⟨List.nodup_nil, by simp, ?_⟩
  intro k
  simp [mapLookup]

theorem candidate_iff (s : Scanner) (hs : KeyIndexOK s.envKeyOrder s.envKeyIndex) (e : Text)
    (i : Nat) (k v : Text) :
    candidate s e = some (i, k, v) ↔
      entryKV e = some (k, v) ∧ v ≠ [] ∧ k ∈ s.envKeyOrder ∧ priorityIndex s.envKeyOrder k = i := by
  obtain ⟨_, hne, hl⟩ := hs
  unfold candidate
  cases hkv : entryKV e with
  | none => simp
  | some kv =>
    obtain ⟨k1, v1⟩ := kv
    simp only [Option.some.injEq, Prod.mk.injEq]
    by_cases hk : k1 = []
    · rw [if_pos hk]
      simp only [false_iff, reduceCtorEq]
      rintro ⟨⟨rfl, rfl⟩, _, hm, _⟩
      exact hne _ hm hk
    · rw [if_neg hk, hl k1]
      by_cases hm : k1 ∈ s.envKeyOrder
      · rw [if_pos hm]
        simp only []
        by_cases hv : v1 = []
        · rw [if_pos hv]
          simp only [false_iff, reduceCtorEq]
          rintro ⟨⟨_, rfl⟩, h2, _⟩
          exact h2 hv
        · rw [if_neg hv]
          simp only [Option.some.injEq, Prod.mk.injEq]
          constructor
          · rintro ⟨rfl, rfl, rfl⟩
            exact ⟨⟨rfl, rfl⟩, hv, hm, rfl⟩
          · rintro ⟨⟨rfl, rfl⟩, _, _, rfl⟩
            exact ⟨rfl, rfl, rfl⟩
      · rw [if_neg hm]
        simp only [false_iff, reduceCtorEq]
        rintro ⟨⟨rfl, rfl⟩, _, hm2, _⟩
        exact hm hm2

theorem firstValue_append_skip (E1 : List Text) (e : Text) (E2 : List Text) (k v : Text)
    (h1 : ∀ e1 ∈ E1, ∀ v1, entryKV e1 = some (k, v1) → v1 = [])
    (h2 : entryKV e = some (k, v)) (hv : v ≠ []) :
    firstValue (E1 ++ e :: E2) k = some v := by
  induction E1 with
  | nil => simp [firstValue, h2, hv]
  | cons a E1 ih =>
    have ih1 := ih (fun e1 he1 => h1 e1 (List.mem_cons_of_mem _ he1))
    simp only [List.cons_append, firstValue]
    cases ha : entryKV a with
    | none => exact ih1
    | some kv =>
      obtain ⟨k1, v1⟩ := kv
      simp only []
      by_cases hc : k1 = k ∧ v1 ≠ []
      · exfalso
        obtain ⟨rfl, hv1⟩ := hc
        exact hv1 (h1 a (List.mem_cons_self _ _) v1 ha)
      · rw [if_neg hc]; exact ih1

/-- The result of `gameIDFromEnviron` for a scanner whose index map agrees with its key list,
in terms of the entries that its loop visits. -/
theorem gameIDFromEnviron_spec (s : Scanner) (hs : KeyIndexOK s.envKeyOrder s.envKeyIndex)
    (data : Text) :
    ((∀ k ∈ s.envKeyOrder, ¬ HasValue (envEntries data) k) ∧
      gameIDFromEnviron s (some data) = ([], [])) ∨
    (∃ k v, gameIDFromEnviron s (some data) = (v, k) ∧ v ≠ [] ∧ k ∈ s.envKeyOrder ∧
      HasValue (envEntries data) k ∧
      (∀ q ∈ s.envKeyOrder, HasValue (envEntries data) q →
        priorityIndex s.envKeyOrder k ≤ priorityIndex s.envKeyOrder q) ∧
      firstValue (envEntries data) k = some v) := by
  unfold gameIDFromEnviron
  by_cases hn : s.envKeyOrder.length = 0
  · left
    rw [if_pos hn]
    refine ⟨?_, rfl⟩
    intro k hk
    rw [List.length_eq_zero.1 hn] at hk
    simp at hk
  · rw [if_neg hn]
    simp only []
    have hcand : ∀ q ∈ s.envKeyOrder, ∀ e v, entryKV e = some (q, v) → v ≠ [] →
        candidate s e = some (priorityIndex s.envKeyOrder q, q, v) :=
      fun q hq e v h1 h2 => (candidate_iff s hs e _ q v).2 ⟨h1, h2, hq, rfl⟩
    rcases envLoop_spec s (envEntries data) (s.envKeyOrder.length + 1) [] [] with
      ⟨h1, h2⟩ | ⟨E1, e, E2, c, h1, h2, h3, h4, h5, h6⟩
    · left
      refine ⟨?_, h2⟩
      rintro k hk ⟨e, he, v, hkv, hv⟩
      have := h1 e he _ (hcand k hk e v hkv hv)
      have hlt := priorityIndex_lt_length _ _ hk
      simp only [] at this
      omega
    · right
      obtain ⟨i, k, v⟩ := c
      obtain ⟨c1, c2, c3, c4⟩ := (candidate_iff s hs e i k v).1 h2
      refine ⟨k, v, h6, c2, c3, ⟨e, by rw [h1]; simp, v, c1, c2⟩, ?_, ?_⟩
      · rintro q hq ⟨e1, he1, v1, hkv, hv⟩
        have hc1 := hcand q hq e1 v1 hkv hv
        rw [h1] at he1
        rw [c4]
        rcases List.mem_append.1 he1 with he1 | he1
        · exact le_of_lt (h4 e1 he1 _ hc1)
        · rcases List.mem_cons.1 he1 with rfl | he1
          · rw [h2] at hc1
            simp only [Option.some.injEq, Prod.mk.injEq] at hc1
            omega
          · exact h5 e1 he1 _ hc1
      · rw [h1]
        apply firstValue_append_skip _ _ _ _ _ _ c1 c2
        intro e1 he1 v1 hkv
        by_contra hv
        have := h4 e1 he1 _ (hcand k c3 e1 v1 hkv hv)
        simp only [] at this
        omega

theorem Split_envEntries (data : Text) :
    Split (Char.ofNat 0) data = envEntries data ∨
      Split (Char.ofNat 0) data = envEntries data ++ [[]] := by
  induction data with
  | nil => right; rfl
  | cons c cs ih =>
    by_cases hc : c = Char.ofNat 0
    · rcases ih with ih | ih
      · left; simp [Split, envEntries, hc, ih]
      · right; simp [Split, envEntries, hc, ih]
    · rcases ih with ih | ih
      · left
        simp only [Split, envEntries, hc, if_false, ih]
      · cases he : envEntries cs with
        | nil =>
          left
          rw [he] at ih
          simp only [Split, envEntries, hc, if_false, ih, he, List.nil_append]
        | cons e es =>
          right
          rw [he] at ih
          simp only [Split, envEntries, hc, if_false, ih, he, List.cons_append]

theorem entryKV_nil : entryKV [] = none := by
  simp [entryKV]

theorem HasValue_append_nil (E : List Text) (k : Text) : HasValue (E ++ [[]]) k ↔ HasValue E k := by
  unfold HasValue
  constructor
  · rintro ⟨e, he, v, h1, h2⟩
    rcases List.mem_append.1 he with he | he
    · exact ⟨e, he, v, h1, h2⟩
    · rw [List.mem_singleton] at he
      subst he
      rw [entryKV_nil] at h1
      simp at h1
  · rintro ⟨e, he, v, h1, h2⟩
    exact ⟨e, List.mem_append_left _ he, v, h1, h2⟩

theorem firstValue_append_nil (E : List Text) (k : Text) :
    firstValue (E ++ [[]]) k = firstValue E k := by
  induction E with
  | nil => simp [firstValue, entryKV_nil]
  | cons e E ih =>
    rw [List.cons_append, firstValue, firstValue, ih]

theorem HasValue_blockEntries (data : Text) (k : Text) :
    HasValue (blockEntries data) k ↔ HasValue (envEntries data) k := by
  unfold blockEntries
  rcases Split_envEntries data with h | h
  · rw [h]
  · rw [h, HasValue_append_nil]

theorem firstValue_blockEntries (data : Text) (k : Text) :
    firstValue (blockEntries data) k = firstValue (envEntries data) k := by
  unfold blockEntries
  rcases Split_envEntries data with h | h
  · rw [h]
  · rw [h, firstValue_append_nil]

theorem HasValue_perm (E1 E2 : List Text) (h : E1.Perm E2) (k : Text) :
    HasValue E1 k ↔ HasValue E2 k := by
  unfold HasValue
  constructor
  · rintro ⟨e, he, r⟩; exact ⟨e, h.mem_iff.1 he, r⟩
  · rintro ⟨e, he, r⟩; exact ⟨e, h.mem_iff.2 he, r⟩

/-- The resolution of `gameIDFromEnviron` in terms of the entries of the block, for a
scanner whose index map agrees with its key list. -/
theorem gameIDFromEnviron_block (s : Scanner) (hs : KeyIndexOK s.envKeyOrder s.envKeyIndex)
    (data : Text) :
    ((∀ k ∈ s.envKeyOrder, ¬ HasValue (blockEntries data) k) ∧
      gameIDFromEnviron s (some data) = ([], [])) ∨
    (∃ k v, gameIDFromEnviron s (some data) = (v, k) ∧ v ≠ [] ∧ k ∈ s.envKeyOrder ∧
      HasValue (blockEntries data) k ∧
      (∀ q ∈ s.envKeyOrder, HasValue (blockEntries data) q →
        priorityIndex s.envKeyOrder k ≤ priorityIndex s.envKeyOrder q) ∧
      firstValue (blockEntries data) k = some v) := by
  simp only [HasValue_blockEntries, firstValue_blockEntries]
  exact gameIDFromEnviron_spec s hs data

/-! ### The key list that `NewScanner` builds -/

theorem mem_firstOccurrences (l : List Text) (k : Text) : k ∈ firstOccurrences l ↔ k ∈ l := by
  induction l with
  | nil => simp [firstOccurrences]
  | cons a rest ih =>
    simp only [firstOccurrences, List.mem_cons, List.mem_filter, ih, decide_eq_true_eq]
    by_cases h : k = a
    · simp [h]
    · simp [h]

theorem firstOccurrences_nodup (l : List Text) : (firstOccurrences l).Nodup := by
  induction l with
  | nil => simp [firstOccurrences]
  | cons a rest ih =>
    simp only [firstOccurrences, List.nodup_cons, List.mem_filter, decide_eq_true_eq]
    exact ⟨fun h => h.2 rfl, ih.filter _⟩

theorem priorityIndex_filter_lt (p : Text → Bool) (m : List Text) (k q : Text)
    (hk : k ∈ m) (hq : q ∈ m) (pk : p k = true) (pq : p q = true) :
    priorityIndex (m.filter p) k < priorityIndex (m.filter p) q ↔
      priorityIndex m k < priorityIndex m q := by
  induction m with
  | nil => simp at hk
  | cons b rest ih =>
    by_cases pb : p b = true
    · rw [List.filter_cons_of_pos pb]
      simp only [priorityIndex]
      by_cases hbk : b = k
      · subst hbk
        by_cases hbq : b = q
        · subst hbq; simp
        · simp [hbq]
      · by_cases hbq : b = q
        · subst hbq; simp [hbk]
        · have hk2 : k ∈ rest := by
            rcases List.mem_cons.1 hk with h | h
            · exact absurd h.symm hbk
            · exact h
          have hq2 : q ∈ rest := by
            rcases List.mem_cons.1 hq with h | h
            · exact absurd h.symm hbq
            · exact h
          have := ih hk2 hq2
          simp only [hbk, hbq, if_false]
          omega
    · rw [List.filter_cons_of_neg pb]
      have hbk : b ≠ k := fun e => pb (e ▸ pk)
      have hbq : b ≠ q := fun e => pb (e ▸ pq)
      have hk2 : k ∈ rest := by
        rcases List.mem_cons.1 hk with h | h
        · exact absurd h.symm hbk
        · exact h
      have hq2 : q ∈ rest := by
        rcases List.mem_cons.1 hq with h | h
        · exact absurd h.symm hbq
        · exact h
      have := ih hk2 hq2
      simp only [priorityIndex, hbk, hbq, if_false]
      omega

theorem priorityIndex_firstOccurrences_lt (l : List Text) (k q : Text)
    (hk : k ∈ l) (hq : q ∈ l) :
    priorityIndex (firstOccurrences l) k < priorityIndex (firstOccurrences l) q ↔
      priorityIndex l k < priorityIndex l q := by
  induction l with
  | nil => simp at hk
  | cons a rest ih =>
    simp only [firstOccurrences, priorityIndex]
    by_cases hak : a = k
    · subst hak
      by_cases haq : a = q
      · subst haq; simp
      · simp [haq]
    · by_cases haq : a = q
      · subst haq; simp [hak]
      · have hk2 : k ∈ rest := by
          rcases List.mem_cons.1 hk with h | h
          · exact absurd h.symm hak
          · exact h
        have hq2 : q ∈ rest := by
          rcases List.mem_cons.1 hq with h | h
          · exact absurd h.symm haq
          · exact h
        have h1 := priorityIndex_filter_lt (fun b => decide (b ≠ a)) (firstOccurrences rest) k q
          ((mem_firstOccurrences _ _).2 hk2) ((mem_firstOccurrences _ _).2 hq2)
          (by simpa using Ne.symm hak) (by simpa using Ne.symm haq)
        have h2 := ih hk2 hq2
        simp only [hak, haq, if_false]
        omega

theorem configuredKeys_nodup (envKeys : List Text) : (configuredKeys envKeys).Nodup :=
  firstOccurrences_nodup _

theorem mem_configuredKeys (envKeys : List Text) (k : Text) :
    k ∈ configuredKeys envKeys ↔ k ≠ [] ∧ ∃ raw ∈ envKeys, TrimSpace raw = k := by
  unfold configuredKeys
  rw [mem_firstOccurrences, List.mem_filter, List.mem_map]
  simp only [decide_eq_true_eq]
  exact and_comm

theorem priorityIndex_configuredKeys_lt (envKeys : List Text) (k q : Text)
    (hk : k ∈ configuredKeys envKeys) (hq : q ∈ configuredKeys envKeys) :
    priorityIndex (configuredKeys envKeys) k < priorityIndex (configuredKeys envKeys) q ↔
      priorityIndex (envKeys.map TrimSpace) k < priorityIndex (envKeys.map TrimSpace) q := by
  have hk1 := (mem_firstOccurrences _ _).1 hk
  have hq1 := (mem_firstOccurrences _ _).1 hq
  unfold configuredKeys
  rw [priorityIndex_firstOccurrences_lt _ _ _ hk1 hq1]
  rw [List.mem_filter] at hk1 hq1
  exact priorityIndex_filter_lt _ _ _ _ hk1.1 hq1.1 hk1.2 hq1.2

theorem configuredKeys_cons (k : Text) (rest : List Text) :
    configuredKeys (k :: rest) =
      if TrimSpace k = [] then configuredKeys rest
      else TrimSpace k :: (configuredKeys rest).filter (fun b => decide (b ≠ TrimSpace k)) := by
  unfold configuredKeys
  by_cases h : TrimSpace k = []
  · rw [if_pos h, List.map_cons, List.filter_cons_of_neg (by simp [h])]
  · rw [if_neg h, List.map_cons, List.filter_cons_of_pos (by simp [h]), firstOccurrences]

theorem newScannerLoop_keys (envKeys : List Text) :
    ∀ (keys : List Text) (idx : List (Text × Nat)),
      (∀ q, (mapLookup idx q).isSome = true ↔ q ∈ keys) →
      (newScannerLoop envKeys keys idx).1 =
        keys ++ (configuredKeys envKeys).filter (fun b => decide (b ∉ keys)) := by
  induction envKeys with
  | nil =>
    intro keys idx _
    simp [newScannerLoop, configuredKeys, firstOccurrences]
  | cons k rest ih =>
    intro keys idx hinv
    rw [newScannerLoop, configuredKeys_cons]
    by_cases h1 : TrimSpace k = []
    · rw [if_pos h1, if_pos h1]
      exact ih keys idx hinv
    · rw [if_neg h1, if_neg h1]
      by_cases h2 : (mapLookup idx (TrimSpace k)).isSome = true
      · rw [if_pos h2, ih keys idx hinv]
        have hm : TrimSpace k ∈ keys := (hinv _).1 h2
        rw [List.filter_cons_of_neg (by simpa using hm), List.filter_filter]
        congr 1
        apply List.filter_congr
        intro b _
        by_cases hb : b ∈ keys
        · simp [hb]
        · have : b ≠ TrimSpace k := fun e => hb (e ▸ hm)
          simp [hb, this]
      · rw [if_neg h2]
        have hm : TrimSpace k ∉ keys := fun hm => h2 ((hinv _).2 hm)
        rw [ih, List.filter_cons_of_pos (by simpa using hm), List.filter_filter,
          List.append_assoc, List.singleton_append]
        · congr 2
          apply List.filter_congr
          intro b _
          by_cases hb : b ∈ keys
          · simp [hb]
          · by_cases hbk : b = TrimSpace k
            · simp [hb, hbk]
            · simp [hb, hbk]
        · intro q
          rw [mapLookup_append]
          by_cases hq : q ∈ keys
          · have := (hinv q).2 hq
            cases hl : mapLookup idx q with
            | none => rw [hl] at this; simp at this
            | some v => simp [hq]
          · have hn : mapLookup idx q = none := by
              cases hl : mapLookup idx q with
              | none => rfl
              | some v =>
                exact absurd ((hinv q).1 (by rw [hl]; rfl)) hq
            rw [hn]
            by_cases hqk : TrimSpace k = q
            · simp [hqk]
            · simp [hqk, hq, Ne.symm hqk]

/-- The key list of the scanner that `NewScanner` returns is the configured key list. -/
theorem NewScanner_envKeyOrder (lower : Text → Text) (uid : Int)
    (envKeys allow ignore : List Text) :
    (NewScanner lower uid envKeys allow ignore).envKeyOrder = configuredKeys envKeys := by
  unfold NewScanner
  simp only []
  rw [newScannerLoop_keys envKeys [] [] (by intro q; simp [mapLookup])]
  simp

/-- C8: for every key list given to `NewScanner` and every environment block: the key list
of the scanner is the configured key list, that is the given keys trimmed of white space,
without the empty ones and without repetitions (its keys are distinct, they are the non-empty
trimmed given keys, and one key comes before another exactly when its first occurrence in the
given list does); when some configured key occurs in the block with a non-empty trimmed value,
`gameIDFromEnviron` returns as source a configured key that has such a value and whose
priority index (its position in the configured key list) is the lowest among the configured
keys that have one, and as identifier the trimmed value of the first entry of that key with a
non-empty value; the identifier is empty exactly when no configured key has a non-empty value;
and permuting the entries of the block does not change the key. -/
theorem C8_environ_key_priority (lower : Text → Text) (uid : Int)
    (envKeys allow ignore : List Text) (data : Text) :
    (NewScanner lower uid envKeys allow ignore).envKeyOrder = configuredKeys envKeys ∧
    (configuredKeys envKeys).Nodup ∧
    (∀ k, k ∈ configuredKeys envKeys ↔ k ≠ [] ∧ ∃ raw ∈ envKeys, TrimSpace raw = k) ∧
    (∀ k ∈ configuredKeys envKeys, ∀ q ∈ configuredKeys envKeys,
      (priorityIndex (configuredKeys envKeys) k < priorityIndex (configuredKeys envKeys) q ↔
        priorityIndex (envKeys.map TrimSpace) k < priorityIndex (envKeys.map TrimSpace) q)) ∧
    ((∃ k ∈ configuredKeys envKeys, HasValue (blockEntries data) k) →
      (gameIDFromEnviron (NewScanner lower uid envKeys allow ignore) (some data)).2
          ∈ configuredKeys envKeys ∧
      HasValue (blockEntries data)
        (gameIDFromEnviron (NewScanner lower uid envKeys allow ignore) (some data)).2 ∧
      (∀ q ∈ configuredKeys envKeys, HasValue (blockEntries data) q →
        priorityIndex (configuredKeys envKeys)
            (gameIDFromEnviron (NewScanner lower uid envKeys allow ignore) (some data)).2 ≤
          priorityIndex (configuredKeys envKeys) q) ∧
      firstValue (blockEntries data)
          (gameIDFromEnviron (NewScanner lower uid envKeys allow ignore) (some data)).2 =
        some (gameIDFromEnviron (NewScanner lower uid envKeys allow ignore) (some data)).1) ∧
    ((gameIDFromEnviron (NewScanner lower uid envKeys allow ignore) (some data)).1 = [] ↔
      ¬ ∃ k ∈ configuredKeys envKeys, HasValue (blockEntries data) k) ∧
    (∀ other : Text, (blockEntries other).Perm (blockEntries data) →
      (gameIDFromEnviron (NewScanner lower uid envKeys allow ignore) (some other)).2 =
        (gameIDFromEnviron (NewScanner lower uid envKeys allow ignore) (some data)).2) := by
  have hs := NewScanner_ok lower uid envKeys allow ignore
  have hkeys := NewScanner_envKeyOrder lower uid envKeys allow ignore
  refine ⟨hkeys, configuredKeys_nodup envKeys, mem_configuredKeys envKeys,
    fun k hk q hq => priorityIndex_configuredKeys_lt envKeys k q hk hq, ?_⟩
  rw [← hkeys]
  generalize NewScanner lower uid envKeys allow ignore = s at hs ⊢
  refine ⟨?_, ?_, ?_⟩
  · rintro ⟨k0, hk0, hv0⟩
    rcases gameIDFromEnviron_block s hs data with ⟨h1, _⟩ | ⟨k, v, h1, _, h3, h4, h5, h6⟩
    · exact absurd hv0 (h1 k0 hk0)
    · rw [h1]
      exact ⟨h3, h4, h5, h6⟩
  · rcases gameIDFromEnviron_block s hs data with ⟨h1, h2⟩ | ⟨k, v, h1, h2, h3, h4, _, _⟩
    · rw [h2]
      simp only [true_iff]
      rintro ⟨k, hk, hv⟩
      exact h1 k hk hv
    · rw [h1]
      simp only [h2, false_iff, not_not]
      exact ⟨k, h3, h4⟩
  · intro other hperm
    have hp : ∀ k, HasValue (blockEntries other) k ↔ HasValue (blockEntries data) k :=
      HasValue_perm _ _ hperm
    rcases gameIDFromEnviron_block s hs data with ⟨h1, h2⟩ | ⟨k, v, h1, _, h3, h4, h5, _⟩
    · rcases gameIDFromEnviron_block s hs other with ⟨g1, g2⟩ | ⟨q, w, g1, _, g3, g4, _, _⟩
      · rw [h2, g2]
      · exact absurd ((hp q).1 g4) (h1 q g3)
    · rcases gameIDFromEnviron_block s hs other with ⟨g1, g2⟩ | ⟨q, w, g1, _, g3, g4, g5, _⟩
      · exact absurd ((hp k).2 h4) (g1 k h3)
      · rw [h1, g1]
        have a := h5 q g3 ((hp q).1 g4)
        have b := g5 k h3 ((hp k).2 h4)
        show q = k
        exact priorityIndex_inj _ _ _ g3 h3 (by omega)

/-- C8 at a concrete process: the keys `A`, `B` (given untrimmed and with a repetition) make
the configured key list `A`, `B`, and for the block `B=2`, `A= 1 `, `A=3` the key `A` of
index 0 is chosen although `B` comes first, with the trimmed value of its first entry. -/
theorem C8_environ_key_priority_witness :
    configuredKeys ["A".toList, " B ".toList, "A".toList] = ["A".toList, "B".toList] ∧
    gameIDFromEnviron (NewScanner toLowerASCII 1000 ["A".toList, " B ".toList, "A".toList] [] [])
        (some ("B=2".toList ++ [Char.ofNat 0] ++ "A= 1 ".toList ++ [Char.ofNat 0] ++
          "A=3".toList ++ [Char.ofNat 0])) = ("1".toList, "A".toList) ∧
      HasValue (blockEntries ("B=2".toList ++ [Char.ofNat 0] ++ "A= 1 ".toList ++ [Char.ofNat 0] ++
          "A=3".toList ++ [Char.ofNat 0]))
        (gameIDFromEnviron (NewScanner toLowerASCII 1000 ["A".toList, " B ".toList, "A".toList] [] [])
          (some ("B=2".toList ++ [Char.ofNat 0] ++ "A= 1 ".toList ++ [Char.ofNat 0] ++
            "A=3".toList ++ [Char.ofNat 0]))).2 :=
  ⟨by decide, by decide,
    ((C8_environ_key_priority toLowerASCII 1000 ["A".toList, " B ".toList, "A".toList] [] []
      ("B=2".toList ++ [Char.ofNat 0] ++ "A= 1 ".toList ++ [Char.ofNat 0] ++
          "A=3".toList ++ [Char.ofNat 0])).2.2.2.2.1
      ⟨"B".toList, by decide, "B=2".toList, by decide, "2".toList, by decide, by decide⟩).2.1⟩

/-! ## `Scan`: classification of a process -/

theorem gameIDFromEnviron_source (s : Scanner) (hs : KeyIndexOK s.envKeyOrder s.envKeyIndex)
    (environ : Option Text) (h : (gameIDFromEnviron s environ).1 ≠ []) :
    (gameIDFromEnviron s environ).2 ∈ s.envKeyOrder := by
  cases environ with
  | none =>
    exfalso
    apply h
    unfold gameIDFromEnviron
    split <;> rfl
  | some data =>
    rcases gameIDFromEnviron_spec s hs data with ⟨_, h2⟩ | ⟨k, v, h1, _, h3, _⟩
    · rw [h2] at h; exact absurd rfl h
    · rw [h1]; exact h3

/-- C9 as stated fails: with the environment key `exe_allowlist` configured, a process whose
environment holds `exe_allowlist=game.exe` is recorded by environment evidence with exactly
the game identifier and the evidence source of a process matched by the allowlist entry
`game.exe`. -/
theorem C9_source_clash_counterexample :
    gameIDFromEnviron (NewScanner toLowerASCII 1000 ["exe_allowlist".toList] ["game.exe".toList] [])
        (some "exe_allowlist=game.exe".toList) = ("game.exe".toList, "exe_allowlist".toList) ∧
      scanEntry (NewScanner toLowerASCII 1000 ["exe_allowlist".toList] ["game.exe".toList] [])
        { name := "41".toList, isDir := true, owned := some true, exeBase := "wine".toList,
          environ := some "exe_allowlist=game.exe".toList, startTime := some 7 }
        = some { PID := 41, StartTime := 7, Exe := "wine".toList, GameID := "game.exe".toList,
                 IDSource := "exe_allowlist".toList } ∧
      gameIDFromEnviron (NewScanner toLowerASCII 1000 ["exe_allowlist".toList] ["game.exe".toList] [])
        (some "HOME=/root".toList) = ([], []) ∧
      scanEntry (NewScanner toLowerASCII 1000 ["exe_allowlist".toList] ["game.exe".toList] [])
        { name := "42".toList, isDir := true, owned := some true, exeBase := "game.exe".toList,
          environ := some "HOME=/root".toList, startTime := some 9 }
        = some { PID := 42, StartTime := 9, Exe := "game.exe".toList,
                 GameID := "game.exe".toList, IDSource := "exe_allowlist".toList } := by
  decide

/-- C9 (amended): for a scanner built by `NewScanner`, every record that the loop body of
`Scan` produces comes either from environment evidence (the environment resolution gave a
non-empty identifier, which is the game identifier, and the source is the matched configured
key) or from the allowlist fallback (the environment resolution gave no identifier, the
executable name is allowlisted and is the game identifier, and the source is
`exe_allowlist`); and when `exe_allowlist` is not one of the configured environment keys the
source is `exe_allowlist` exactly for the allowlist matches. -/
theorem C9_allowlist_fallback (lower : Text → Text) (uid : Int)
    (envKeys allow ignore : List Text) (ent : ProcEntry) (gp : GameProcess)
    (h : scanEntry (NewScanner lower uid envKeys allow ignore) ent = some gp) :
    (((gameIDFromEnviron (NewScanner lower uid envKeys allow ignore) ent.environ).1 ≠ [] ∧
        gp.GameID = (gameIDFromEnviron (NewScanner lower uid envKeys allow ignore) ent.environ).1 ∧
        gp.IDSource = (gameIDFromEnviron (NewScanner lower uid envKeys allow ignore) ent.environ).2 ∧
        gp.IDSource ∈ (NewScanner lower uid envKeys allow ignore).envKeyOrder) ∨
      ((gameIDFromEnviron (NewScanner lower uid envKeys allow ignore) ent.environ).1 = [] ∧
        ent.exeBase ∈ (NewScanner lower uid envKeys allow ignore).exeAllowlist ∧
        gp.GameID = ent.exeBase ∧ gp.IDSource = "exe_allowlist".toList)) ∧
    ("exe_allowlist".toList ∉ (NewScanner lower uid envKeys allow ignore).envKeyOrder →
      (gp.IDSource = "exe_allowlist".toList ↔
        (gameIDFromEnviron (NewScanner lower uid envKeys allow ignore) ent.environ).1 = [])) := by
  have hs := NewScanner_ok lower uid envKeys allow ignore
  generalize NewScanner lower uid envKeys allow ignore = s at hs h ⊢
  have hsrc := gameIDFromEnviron_source s hs ent.environ
  have main : ((gameIDFromEnviron s ent.environ).1 ≠ [] ∧
        gp.GameID = (gameIDFromEnviron s ent.environ).1 ∧
        gp.IDSource = (gameIDFromEnviron s ent.environ).2) ∨
      ((gameIDFromEnviron s ent.environ).1 = [] ∧ ent.exeBase ∈ s.exeAllowlist ∧
        gp.GameID = ent.exeBase ∧ gp.IDSource = "exe_allowlist".toList) := by
    unfold scanEntry at h
    split at h
    · simp at h
    · split at h
      · simp at h
      · split at h
        · simp at h
        · split at h
          · simp at h
          · simp at h
          · simp only [] at h
            split at h
            · simp at h
            · split at h
              · simp at h
              · by_cases hid : (gameIDFromEnviron s ent.environ).1 = []
                · right
                  rw [if_pos hid] at h
                  by_cases hal : ent.exeBase ∈ s.exeAllowlist
                  · rw [if_pos hal] at h
                    simp only [] at h
                    split at h
                    · simp at h
                    · simp only [Option.some.injEq] at h
                      subst h
                      exact ⟨hid, hal, rfl, rfl⟩
                  · rw [if_neg hal, if_pos hid] at h
                    simp at h
                · left
                  rw [if_neg hid, if_neg hid] at h
                  simp only [Option.some.injEq] at h
                  subst h
                  exact ⟨hid, rfl, rfl⟩
  refine ⟨?_, ?_⟩
  · rcases main with ⟨a, b, c⟩ | m
    · exact Or.inl ⟨a, b, c, c ▸ hsrc a⟩
    · exact Or.inr m
  · intro hnot
    rcases main with ⟨a, _, c⟩ | ⟨a, _, _, d⟩
    · constructor
      · intro he
        exfalso
        apply hnot
        rw [← he, c]
        exact hsrc a
      · intro he; exact absurd he a
    · exact ⟨fun _ => a, fun _ => d⟩

/-- C9 (amended) at a concrete process: an allowlisted executable without environment
evidence. -/
theorem C9_allowlist_fallback_witness :
    (gameIDFromEnviron (NewScanner toLowerASCII 1000 ["SteamAppId".toList] ["game.exe".toList] [])
        (some "HOME=/root".toList)).1 = [] ∧
      ("exe_allowlist".toList = "exe_allowlist".toList ↔
        (gameIDFromEnviron (NewScanner toLowerASCII 1000 ["SteamAppId".toList] ["game.exe".toList] [])
          (some "HOME=/root".toList)).1 = []) :=
  ⟨by decide,
    (C9_allowlist_fallback toLowerASCII 1000 ["SteamAppId".toList] ["game.exe".toList] []
      { name := "42".toList, isDir := true, owned := some true, exeBase := "game.exe".toList,
        environ := some "HOME=/root".toList, startTime := some 9 }
      { PID := 42, StartTime := 9, Exe := "game.exe".toList, GameID := "game.exe".toList,
        IDSource := "exe_allowlist".toList } (by decide)).2 (by decide)⟩

/-! ## `Load` -/

/-- On a missing file `Load` returns the record `File{Version: 1}`, whose original-affinity
mapping is the nil map: the substitution of an empty mapping that the path for an existing
file performs is not done here. -/
theorem Load_notExist (Unmarshal : Text → Option File) :
    Load Unmarshal .notExist = .ok { File.zero with Version := 1 } ∧
      ({ File.zero with Version := 1 } : File).OriginalAllowedCPUs = none :=
  ⟨rfl, rfl⟩

/-- C10 as stated fails: a state file that holds `{"version": -1}` is parsable, `Load`
returns no error, and the returned record has version -1. -/
theorem C10_negative_version_counterexample :
    Load versionMinusOneDecoder (.contents "\x7b\"version\": -1\x7d".toList)
      = .ok { File.zero with Version := -1, OriginalAllowedCPUs := some [] } ∧
    ¬ (1 ≤ ({ File.zero with Version := -1, OriginalAllowedCPUs := some [] } : File).Version) :=
  ⟨rfl, by decide⟩

/-- C10 (amended): whenever `Load` returns no error the version of the record is not 0: it is
1 for a missing file and for a stored version 0 (or no stored version), and otherwise the
stored version unchanged, hence at least 1 unless the file stores a negative version; and for
a file that exists the original-affinity mapping of the record is not nil. -/
theorem C10_Load_well_formed (Unmarshal : Text → Option File) (rd : ReadFile) (st : File)
    (h : Load Unmarshal rd = .ok st) :
    st.Version ≠ 0 ∧ (rd = .notExist → st.Version = 1) ∧
      (∀ data raw, rd = .contents data → Unmarshal data = some raw →
        st.Version = (if raw.Version = 0 then 1 else raw.Version) ∧
        (0 ≤ raw.Version → 1 ≤ st.Version) ∧ st.OriginalAllowedCPUs ≠ none) := by
  cases rd with
  | notExist =>
    simp only [Load, Except.ok.injEq] at h
    subst h
    refine ⟨by decide, fun _ => rfl, ?_⟩
    intro data raw hd
    simp at hd
  | failed => simp [Load] at h
  | contents data =>
    simp only [Load] at h
    cases hu : Unmarshal data with
    | none => rw [hu] at h; simp at h
    | some raw =>
      rw [hu] at h
      simp only [Except.ok.injEq] at h
      have hv : st.Version = (if raw.Version = 0 then 1 else raw.Version) := by
        rw [← h]
        by_cases h0 : raw.Version = 0 <;> by_cases hn : raw.OriginalAllowedCPUs = none <;>
          simp [h0, hn]
      have hm : st.OriginalAllowedCPUs ≠ none := by
        rw [← h]
        by_cases h0 : raw.Version = 0 <;> by_cases hn : raw.OriginalAllowedCPUs = none <;>
          simp [h0, hn]
      refine ⟨?_, by simp, ?_⟩
      · rw [hv]
        split
        · decide
        · assumption
      · intro d r hd hr
        simp only [ReadFile.contents.injEq] at hd
        subst hd
        rw [hu] at hr
        simp only [Option.some.injEq] at hr
        subst hr
        refine ⟨hv, ?_, hm⟩
        intro hnn
        rw [hv]
        split
        · decide
        · omega

/-- C10 (amended) at a concrete file: the record stored by the decoder stand-in. -/
theorem C10_Load_well_formed_witness :
    ({ File.zero with Version := -1, OriginalAllowedCPUs := some [] } : File).Version ≠ 0 :=
  (C10_Load_well_formed versionMinusOneDecoder (.contents "\x7b\"version\": -1\x7d".toList)
    { File.zero with Version := -1, OriginalAllowedCPUs := some [] } rfl).1

/-! ## `Save` followed by `Load` -/

theorem mapGet_none_fix (m : Option (List (Text × Text))) (k : Text) :
    mapGet (if m = none then some [] else m) k = mapGet m k := by
  cases m with
  | none => rfl
  | some l => rfl

end Ccdbind
